import Mathlib

/-!
Verification of the cas-app interpreter pipeline (lexer, parser, like-term
accumulator, renderer) against its natural-language specification.

Shallow embedding conventions:
* Rust `f64` values are modelled as fractions `Fl` (an integer numerator
  over a natural denominator, compared by cross-multiplication).  Every value
  the pipeline computes with is an integer-valued double, so the two places
  where the source repeatedly accumulates `f64` values whose exact result can
  be unrepresentable — the digit-accumulation loop of `parse_constant`
  (`roundStep`) and the coefficient merge `*e += coefficient` of `add_term`
  (`addF64`) — round their exact integer results to the nearest double
  (round to nearest, ties to even: `rnd64`), as the hardware does.
  `f64::EPSILON` and `f64::MAX` are the exact values `2^-52` and
  `(2^53-1)*2^971`.  `Fl` has no NaN or infinities; the NaN branches of the
  source are unreachable in the pipeline (no division or non-finite
  literals), and the overflow-to-infinity threshold `2^1024 - 2^970` is
  unreachable from the accumulator guard (noted at `rnd64`).  `f64` equality
  (`==`) is value equality `Fl.beq`, never the structural equality of the
  representation.
* Rust's `VecDeque<Token>` is a `List Token` consumed from the front.
* `HashMap<Vec<(String, HashableFloat)>, f64>` is an insertion-ordered
  association list.  A `HashMap` unifies two keys exactly when their hashes
  agree and `Eq` holds on them, so entry lookup here requires both the hashed
  form and the `approx_eq`-based `Eq` of the source to match.
* `HashSet<String>` is an insertion-ordered duplicate-free `List String`.
* The `while tokens.len() > 0` loop of `Parser::parse_expression` is modelled
  with explicit fuel; `none` means the loop has not exited within the given
  fuel.  (The loop can genuinely diverge; see the claim C1 theorem.)
-/

namespace Cas

/-- An exact fraction: the model of the `f64` values flowing through this
program.  The denominator is kept positive for every value the program
constructs; comparisons use cross-multiplication. -/
structure Fl where
  n : ℤ
  d : ℕ
deriving DecidableEq

instance (k : ℕ) : OfNat Fl k := ⟨⟨(k : ℤ), 1⟩⟩

/-- Embedding of an integer as an `f64` value. -/
def Fl.ofInt (i : ℤ) : Fl := ⟨i, 1⟩

/-- Embedding of a natural number as an `f64` value. -/
def Fl.ofNat (k : ℕ) : Fl := ⟨(k : ℤ), 1⟩

/-- `f64` equality (`==`): value equality of exact fractions. -/
def Fl.beq (a b : Fl) : Bool := decide (a.n * (b.d : ℤ) = b.n * (a.d : ℤ))

/-- `f64` strict order (`<`) on the (non-NaN) values representable here. -/
def Fl.blt (a b : Fl) : Bool := decide (a.n * (b.d : ℤ) < b.n * (a.d : ℤ))

/-- `f64` order (`<=`) on the (non-NaN) values representable here. -/
def Fl.ble (a b : Fl) : Bool := decide (a.n * (b.d : ℤ) ≤ b.n * (a.d : ℤ))

/-- Exact addition of fractions.  The `f64` additions of the source are
modelled by `addF64` and `roundStep` below, which round; exact addition is
used for the spec-side accumulated values and as the unreachable
non-integral fallback of `addF64`. -/
def Fl.add (a b : Fl) : Fl := ⟨a.n * b.d + b.n * a.d, a.d * b.d⟩

/-- Exact multiplication. -/
def Fl.mul (a b : Fl) : Fl := ⟨a.n * b.n, a.d * b.d⟩

/-- Exact negation. -/
def Fl.neg (a : Fl) : Fl := ⟨-a.n, a.d⟩

/-- Exact subtraction. -/
def Fl.sub (a b : Fl) : Fl := ⟨a.n * b.d - b.n * a.d, a.d * b.d⟩

/-- Exact division (the program only ever divides by positive values; the
negative branch keeps the denominator nonnegative). -/
def Fl.div (a b : Fl) : Fl :=
  if 0 ≤ b.n then ⟨a.n * b.d, a.d * b.n.toNat⟩
  else ⟨-(a.n * b.d), a.d * (-b.n).toNat⟩

instance : Add Fl := ⟨Fl.add⟩
instance : Mul Fl := ⟨Fl.mul⟩
instance : Neg Fl := ⟨Fl.neg⟩
instance : Sub Fl := ⟨Fl.sub⟩
instance : Div Fl := ⟨Fl.div⟩

/-- Floor of an exact fraction. -/
def Fl.floor (a : Fl) : ℤ := Int.fdiv a.n a.d

/-- `f64::EPSILON`: `2^-52` (the denominator literal is `2^52`; powers are
written as decimal literals so that kernel reduction stays shallow). -/
def EPS : Fl := ⟨1, 4503599627370496⟩

/-- `f64::MAX`: `(2^53 - 1) * 2^971`, as a decimal literal. -/
def FMAX : Fl := ⟨179769313486231570814527423731704356798070567525844996598917476803157260780028538760589558632766878171540458953514382464234321326889464182768467546703537516986049910576551282076245490090389328944075868508455133942304583236903222948165808559332123348274797826204144723168738177180919299881250404026184124858368, 1⟩

/-- `2^e` by repeated squaring, with explicit fuel so that kernel reduction
stays logarithmic in `e`; fuel `12` covers every exponent below `2^12`,
far beyond the `f64` exponent range used here. -/
def pw2fuel : ℕ → ℕ → ℕ
  | 0, _ => 1
  | f + 1, e =>
    if e = 0 then 1
    else
      let h := pw2fuel f (e / 2)
      if e % 2 = 0 then h * h else 2 * (h * h)

/-- `2^e` for every exponent below `2^12`. -/
def pw2 (e : ℕ) : ℕ := pw2fuel 12 e

/-- The chain `(2, 1), (2^2, 2), (2^4, 4), …` of repeatedly squared powers
of two paired with their exponents. -/
def sqChainE : ℕ → ℕ × ℕ → List (ℕ × ℕ)
  | 0, _ => []
  | f + 1, pe => pe :: sqChainE f (pe.1 * pe.1, pe.2 + pe.2)

/-- Accumulate the binary length of `m` from a descending power/exponent
chain: take each power that still fits, dividing it out. -/
def blGo : List (ℕ × ℕ) → ℕ → ℕ → ℕ
  | [], _, acc => acc
  | (p, e) :: rest, m, acc =>
    if p ≤ m then blGo rest (m / p) (acc + e) else blGo rest m acc

/-- Number of binary digits of `m` (the position of its leading bit plus
one), computed from the square chain up to `2^1024`; exact for every
`m < 2^2048`, and `bitLen 0 = 1` by convention. -/
def bitLen (m : ℕ) : ℕ :=
  blGo (sqChainE 11 (2, 1)).reverse m 0 + 1

/-- IEEE-754 `binary64` rounding of a nonnegative integer: exact below
`2^53`; otherwise round to the nearest multiple of `2^(bitLen m - 53)`
(the spacing of doubles in the binade of `m`), ties to the even multiple.
This is the correct finite rounding for every value below the overflow
threshold `2^1024 - 2^970` (beyond which `f64` gives infinity); the guard
of `parse_constant` keeps its accumulator far below that threshold (the
accumulator is at most one digit step past `TFDIV`, under `10 * TFDIV`),
and the order-independence theorem's bound keeps coefficient sums exactly
representable, so no rounding performed by this pipeline overflows. -/
def rnd64 (m : ℕ) : ℕ :=
  if m < 9007199254740992 then m
  else
    let e := bitLen m - 53
    let p := pw2 e
    let q := m / p
    let r := m % p
    if 2 * r < p then q * p
    else if p < 2 * r then (q + 1) * p
    else (if q % 2 = 0 then q else q + 1) * p

/-- `rnd64` extended to integers; `f64` rounding is symmetric in sign. -/
def rndInt (x : ℤ) : ℤ :=
  if x < 0 then -((rnd64 x.natAbs : ℕ) : ℤ) else ((rnd64 x.natAbs : ℕ) : ℤ)

/-- The `f64` addition `*e += coefficient` of `add_term`.  Every coefficient
that reaches it is an integer-valued double (denominator literally `1`),
and the `f64` sum of two such doubles is the exact integer sum rounded to
the nearest double, ties to even.  The non-integral branch falls back to
exact addition and is unreachable in the pipeline. -/
def addF64 (a b : Fl) : Fl :=
  if a.d = 1 ∧ b.d = 1 then ⟨rndInt (a.n + b.n), 1⟩ else a + b

/-- The `f64` constant `f64::MAX / 10.0` that guards the digit loop of
`parse_constant`: the compile-time `f64` division rounds, and the resulting
double is this integer (its binade is `[2^1020, 2^1021)`, so it is the
multiple of `2^968` nearest to the exact quotient `FMAX / 10` — certified
by a theorem below).  In particular it is strictly *greater* than the
exact quotient. -/
def TFDIV : Fl := ⟨17976931348623157580412819756850388593900235011794141176754562789180111453639664485361928830517704263393537268510363518759043843737070229269956251768752166883397940628862983287625967246810352023792017211936260189893797509826303293149283469713429932049693599732425511693654044437030940398714664210204414967808, 1⟩

/-- Display of the numeric values reachable in this pipeline.  Rust's
`Display` for `f64` prints integral finite values as plain decimal integers
(`2.0` prints `2`, `-6.0` prints `-6`); every value rendered by the pipeline
is integral with denominator literally `1`, so only that branch is ever
exercised (the other branch is a fallback display). -/
def renderQ (q : Fl) : String :=
  (if q.n < 0 then "-" else "") ++ Nat.repr q.n.natAbs ++
    (if q.d = 1 then "" else "/" ++ Nat.repr q.d)

/-- `lexer.rs`: `enum Token`. -/
inductive Token
  | number (n : Fl)
  | identifier (s : String)
  | symbol (c : Char)
deriving DecidableEq

/-- `lexer.rs`: the `symbols` set of `Lexer::new`. -/
def lexSymbols : List Char := ['+', '-', '*', '/', '(', ')', '^', '=', '|']

/-- `lexer.rs`: the `keywords` set of `Lexer::new`, as lists of characters
(the in-progress identifier is kept as a `List Char`). -/
def lexKeywords : List (List Char) :=
  [['a', 'b', 's'], ['s', 'q', 'r', 't'], ['p', 'o', 'w'], ['p', 'i'], ['e']]

/-- `lexer.rs`: the character loop of `Lexer::lex`.  `cur` is the in-progress
`current_token`.  Rust's `c.is_numeric()` followed by `to_digit(10).unwrap()`
is modelled by `Char.isDigit` (the ASCII digits; a non-ASCII numeric character
panics the source and is outside every claim considered here). -/
def lexGo : List Char → List Char → List Token
  | [], cur => if cur.length > 0 then [Token.identifier (String.mk cur)] else []
  | c :: cs, cur =>
    if c.isWhitespace then lexGo cs cur
    else if c ∈ lexSymbols then
      (if cur.isEmpty then [] else [Token.identifier (String.mk cur)]) ++
        Token.symbol c :: lexGo cs []
    else if cur ∈ lexKeywords then
      (if cur.isEmpty then [] else [Token.identifier (String.mk cur)]) ++
        lexGo cs [c]
    else if c.isDigit then
      (if cur.isEmpty then [] else [Token.identifier (String.mk cur)]) ++
        Token.number (Fl.ofNat (c.toNat - 48)) :: lexGo cs []
    else lexGo cs (cur ++ [c])

/-- `lexer.rs`: `Lexer::lex` (the lexer cannot fail, so no error type). -/
def lex (s : String) : List Token := lexGo s.data []

/-- `hashable_float.rs`: `struct HashableFloat(pub f64)`. -/
structure HashableFloat where
  val : Fl
deriving DecidableEq

/-- Rust `f64::abs`. -/
def qAbs (q : Fl) : Fl := if Fl.blt q 0 then -q else q

/-- Rust `f64::max` on the (non-NaN) values representable here. -/
def qMax (a b : Fl) : Fl := if Fl.ble a b then b else a

/-- Rust `f64::round`: round to nearest, ties away from zero. -/
def rustRound (q : Fl) : ℤ :=
  if Fl.ble 0 q then Fl.floor (q + ⟨1, 2⟩) else -(Fl.floor (-q + ⟨1, 2⟩))

/-- `hashable_float.rs`: `HashableFloat::normalized` — round to the nearest
multiple of machine epsilon. -/
def normalized (x : HashableFloat) : Fl :=
  Fl.ofInt (rustRound (x.val / EPS)) * EPS

/-- `hashable_float.rs`: `HashableFloat::approx_eq`.  The `is_nan` branch of
the source is dropped: `Fl` has no NaN and no pipeline value is ever NaN. -/
def approxEq (a b : HashableFloat) : Bool :=
  if Fl.beq a.val b.val then true
  else
    let absA := qAbs a.val
    let absB := qAbs b.val
    let diff := qAbs (a.val - b.val)
    if Fl.beq absA 0 || Fl.beq absB 0 then Fl.blt diff EPS
    else Fl.blt (diff / qMax absA absB) EPS

/-- `hashable_float.rs`: `impl Hash for HashableFloat`, as the value whose bit
pattern is fed to the hasher.  `f64::to_bits` is injective on the finite
values representable here except that `0.0` and `-0.0` differ, which the
source special-cases to the bits of `+0.0`; `Fl` likewise identifies the two
zeros by value, so the hashed bit patterns of two values agree exactly when
the results below are `Fl.beq`-equal.  The NaN branch is dropped (no NaN). -/
def hashHF (x : HashableFloat) : Fl :=
  if Fl.beq (normalized x) 0 then 0 else normalized x

/-- A monomial signature: `Vec<(String, HashableFloat)>`. -/
abbrev Sig := List (String × HashableFloat)

/-- `Eq` on signatures as derived in the source: componentwise, with
`HashableFloat`'s `PartialEq` (`approx_eq`) on the exponents. -/
def sigEqb (a b : Sig) : Bool :=
  a.length = b.length &&
    (a.zip b).all (fun p => p.1.1 = p.2.1 && approxEq p.1.2 p.2.2)

/-- Hash agreement on signatures: `Vec` and `String` hashing are injective, so
two signatures hash alike exactly when they have the same length, the same
names, and exponents with the same hashed bit pattern. -/
def sigHashEqb (a b : Sig) : Bool :=
  a.length = b.length &&
    (a.zip b).all (fun p => p.1.1 = p.2.1 && Fl.beq (hashHF p.1.2) (hashHF p.2.2))

/-- Key identity used by the `HashMap<Vec<(String, HashableFloat)>, f64>`:
a probe finds an entry exactly when the hashes agree and `Eq` holds. -/
def sigKeyEqb (a b : Sig) : Bool :=
  sigEqb a b && sigHashEqb a b

/-- `parser.rs`: `enum ASTNode`.  The `Operation`, `Function` and `Equation`
variants are never produced by this pipeline but are kept for fidelity.  The
source names the payloads of `Term` `coefficient` and `variables`. -/
inductive ASTNode
  | number (n : Fl)
  | operation (op : String) (lhs rhs : ASTNode)
  | var (name : String) (exponent : ASTNode)
  | function (name : String) (args : List ASTNode)
  | equation (lhs rhs : ASTNode)
  | expression (terms : List ASTNode)
  | term (coefficient : ASTNode) (vars : List ASTNode)

/-- `mod.rs`: `struct InterpreterError { message: String }`. -/
structure InterpreterError where
  message : String
deriving DecidableEq

/-- `mod.rs`: `InterpreterError::new`. -/
def InterpreterError.new (message : String) : InterpreterError :=
  ⟨message⟩

/-- `mod.rs`: `InterpreterError::unsupported_number`. -/
def InterpreterError.unsupportedNumber (accumulator n : Fl) : InterpreterError :=
  InterpreterError.new ("Unsupported number: " ++ renderQ accumulator ++ renderQ n)

/-- `parser.rs`: `get_sign` — consume a maximal run of leading `+`/`-`
symbols, toggling the sign flag for each `-` (`true` means positive). -/
def getSign : List Token → Bool → Bool × List Token
  | Token.symbol c :: rest, sign =>
    if c = '-' then getSign rest (!sign)
    else if c = '+' then getSign rest sign
    else (sign, Token.symbol c :: rest)
  | ts, sign => (sign, ts)

/-- One iteration of the digit loop of `parse_constant`:
`accumulator *= 10.0;` then `accumulator += n;` — two separately rounded
`f64` operations.  The accumulator is an integer-valued double throughout
(it starts at `0.0` and this step returns one), and every digit token
carries an integer value, so each operation rounds an exact integer
result (`rndInt`). -/
def roundStep (accumulator n : Fl) : Fl :=
  ⟨rndInt (rndInt (accumulator.n * 10) + n.n), 1⟩

/-- `parser.rs`: the digit-accumulation loop of `parse_constant`.  Each
digit is guarded by `accumulator >= f64::MAX / 10.0` (the `f64` constant
`TFDIV`), then consumed by the two rounded operations of `roundStep`. -/
def parseDigits : List Token → Fl → Except InterpreterError (Fl × List Token)
  | Token.number n :: rest, accumulator =>
    if Fl.ble TFDIV accumulator then
      Except.error (InterpreterError.unsupportedNumber accumulator n)
    else parseDigits rest (roundStep accumulator n)
  | ts, accumulator => Except.ok (accumulator, ts)

/-- `parser.rs`: `parse_constant`.  Always returns an `ASTNode::Number`. -/
def parseConstant (ts : List Token) : Except InterpreterError (ASTNode × List Token) :=
  let s := getSign ts true
  match parseDigits s.2 0 with
  | Except.error e => Except.error e
  | Except.ok (accumulator, rest) =>
    Except.ok (ASTNode.number (accumulator * (if s.1 then 1 else -1)), rest)

/-- `parser.rs`: `parse_optional_exponent`. -/
def parseOptionalExponent (ts : List Token) :
    Except InterpreterError (ASTNode × List Token) :=
  match ts with
  | Token.symbol '^' :: rest => parseConstant rest
  | _ => Except.ok (ASTNode.number 1, ts)

/-- Last character of a string; the source calls `chars().last().unwrap()`
only on identifiers, which the lexer never produces empty, so the default
is unreachable. -/
def lastChar (s : String) : Char := s.data.getLastD ' '

/-- `parser.rs`: `parse_optional_variables`.  `var_string.len()` in Rust is
the UTF-8 byte length, and `take(var_string.len() - 1)` takes that many
characters, which is modelled faithfully with `String.utf8ByteSize`. -/
def parseOptionalVariables (ts : List Token) :
    Except InterpreterError (List ASTNode × List Token) :=
  match ts with
  | Token.identifier s :: rest =>
    if s.utf8ByteSize > 1 then
      let init := (s.data.take (s.utf8ByteSize - 1)).map
        (fun c => ASTNode.var (String.mk [c]) (ASTNode.number 1))
      match parseOptionalExponent rest with
      | Except.error e => Except.error e
      | Except.ok (expNode, ts2) =>
        let e := match expNode with
          | ASTNode.number n => ASTNode.number n
          | _ => ASTNode.number 1
        Except.ok (init ++ [ASTNode.var (String.mk [lastChar s]) e], ts2)
    else
      match parseOptionalExponent rest with
      | Except.error e => Except.error e
      | Except.ok (e, ts2) => Except.ok ([ASTNode.var s e], ts2)
  | _ => Except.ok ([], ts)

/-- `parser.rs`: the "pop that pesky term operator" step of `parse_term`:
consume one leading `+` symbol, if present. -/
def popPlus : List Token → List Token
  | Token.symbol '+' :: rest => rest
  | ts => ts

/-- The source's `coefficient == zero` where `zero = Box::new(Number(0.0))`:
`parse_constant` always yields a `Number` node, and the comparison is `f64`
equality on the payloads (under which `-0.0 == 0.0`, as in `Fl.beq`). -/
def astIsZero : ASTNode → Bool
  | ASTNode.number n => Fl.beq n 0
  | _ => false

/-- `parser.rs`: `Parser::parse_term`. -/
def parseTerm (ts : List Token) : Except InterpreterError (ASTNode × List Token) :=
  let beforeConstantLength := ts.length
  match parseConstant ts with
  | Except.error e => Except.error e
  | Except.ok (coefficient, ts1) =>
    let afterConstantLength := ts1.length
    match parseOptionalVariables ts1 with
    | Except.error e => Except.error e
    | Except.ok (vars, ts2) =>
      let ts3 := popPlus ts2
      if vars.length > 0 && astIsZero coefficient then
        if beforeConstantLength = afterConstantLength then
          Except.ok (ASTNode.term (ASTNode.number 1) vars, ts3)
        else
          Except.ok (ASTNode.term (ASTNode.number 0) vars, ts3)
      else
        Except.ok (ASTNode.term coefficient vars, ts3)

/-- `parser.rs`: the `while tokens.len() > 0` loop of
`Parser::parse_expression`, with explicit fuel; `none` means the loop has not
terminated within `fuel` iterations. -/
def parseExpressionFuel : ℕ → List Token → Option (Except InterpreterError (List ASTNode))
  | _, [] => some (Except.ok [])
  | 0, _ :: _ => none
  | fuel + 1, t :: ts =>
    match parseTerm (t :: ts) with
    | Except.error e => some (Except.error e)
    | Except.ok (term, rest) =>
      match parseExpressionFuel fuel rest with
      | none => none
      | some (Except.error e) => some (Except.error e)
      | some (Except.ok terms) => some (Except.ok (term :: terms))

/-- `parser.rs`: `Parser::parse`.  Each loop iteration strictly shortens the
queue whenever the loop terminates at all, so `length + 1` units of fuel are
sufficient for every terminating run; `none` therefore means the source loop
never exits. -/
def parse (ts : List Token) : Option (Except InterpreterError ASTNode) :=
  (parseExpressionFuel (ts.length + 1) ts).map
    (fun r => r.map (fun terms => ASTNode.expression terms))

/-- `parser.rs`: `struct ParsedExpression` (the source names the companion
set field `variables`). -/
structure ParsedExpression where
  terms : List (Sig × Fl)
  vars : List String

/-- `parser.rs`: `ParsedExpression::new`. -/
def ParsedExpression.new : ParsedExpression := ⟨[], []⟩

/-- `HashSet::insert` on the insertion-ordered model. -/
def insertVar (l : List String) (s : String) : List String :=
  if s ∈ l then l else l ++ [s]

/-- `HashMap::entry(k).and_modify(|e| *e += c).or_insert(c)`: `f64`-add `c`
(`addF64`) to the first entry whose key matches `k` under the map's key
identity (hash plus `Eq`), keeping the stored key; append `(k, c)` if none
matches. -/
def updateEntry : List (Sig × Fl) → Sig → Fl → List (Sig × Fl)
  | [], k, c => [(k, c)]
  | (k', c') :: rest, k, c =>
    if sigKeyEqb k' k then (k', addF64 c' c) :: rest
    else (k', c') :: updateEntry rest k c

/-- Proof-side variant of `updateEntry` whose merge is exact addition.
When every coefficient sum stays at or below `2^53 - 1` the rounded merge
agrees with it (theorem `updateEntry_eq_exact` below). -/
def updateEntryExact : List (Sig × Fl) → Sig → Fl → List (Sig × Fl)
  | [], k, c => [(k, c)]
  | (k', c') :: rest, k, c =>
    if sigKeyEqb k' k then (k', c' + c) :: rest
    else (k', c') :: updateEntryExact rest k c

/-- `parser.rs`: `ParsedExpression::add_term` (`if coefficient != 0.0` is the
`f64` comparison, i.e. negated `Fl.beq` with `0`). -/
def addTerm (pe : ParsedExpression) (term : Sig) (coefficient : Fl) :
    ParsedExpression :=
  if Fl.beq coefficient 0 = false then
    if term.length > 0 then
      { terms := updateEntry pe.terms term coefficient,
        vars := insertVar pe.vars (term.headD ("", ⟨0⟩)).1 }
    else
      { pe with terms := updateEntry pe.terms [] coefficient }
  else pe

/-- `parser.rs`: `ParsedExpression::get_term` (`HashMap::get`). -/
def getTerm (pe : ParsedExpression) (term : Sig) : Option Fl :=
  (pe.terms.find? (fun kv => sigKeyEqb kv.1 term)).map (fun kv => kv.2)

/-- `get_term(...).unwrap()` as used by `print_out_expression`, where the key
always comes from the map itself so the lookup succeeds. -/
def getTermD (pe : ParsedExpression) (term : Sig) : Fl :=
  (getTerm pe term).getD 0

/-- `parser.rs`: `ParsedExpression::get_variables`. -/
def getVariables (pe : ParsedExpression) : List String := pe.vars

/-- Three-way comparison on naturals, as Rust `usize::cmp`. -/
def natCmp (a b : ℕ) : Ordering :=
  if a < b then Ordering.lt else if a = b then Ordering.eq else Ordering.gt

/-- Three-way comparison on `f64` values: Rust `f64::partial_cmp` restricted
to the non-NaN values representable here, where it is the total order. -/
def qCmp (a b : Fl) : Ordering :=
  if Fl.blt a b then Ordering.lt
  else if Fl.beq a b then Ordering.eq
  else Ordering.gt

/-- Three-way comparison on characters by code point.  Rust compares `String`s
byte-wise over UTF-8, which orders exactly by code point. -/
def charCmp (a b : Char) : Ordering := natCmp a.toNat b.toNat

/-- Rust `String` comparison: lexicographic. -/
def charsCmp : List Char → List Char → Ordering
  | [], [] => Ordering.eq
  | [], _ :: _ => Ordering.lt
  | _ :: _, [] => Ordering.gt
  | a :: ra, b :: rb =>
    match charCmp a b with
    | Ordering.eq => charsCmp ra rb
    | o => o

/-- Rust `String::partial_cmp` (always `Some` on strings). -/
def strCmp (a b : String) : Ordering := charsCmp a.data b.data

/-- `parser.rs`: the element loop inside the `get_sorted_term_sigs`
comparator — names ascending, then raw exponent values descending (note the
swapped operands `elem_b.1.0.partial_cmp(&elem_a.1.0)` in the source). -/
def zipCmp : Sig → Sig → Ordering
  | (na, ea) :: ra, (nb, eb) :: rb =>
    match strCmp na nb with
    | Ordering.eq =>
      match qCmp eb.val ea.val with
      | Ordering.eq => zipCmp ra rb
      | o => o
    | o => o
  | _, _ => Ordering.eq

/-- `parser.rs`: the full `get_sorted_term_sigs` comparator: empty signatures
move to the right, otherwise the pairwise comparison above, falling back to
length (shorter first). -/
def sigCmp (a b : Sig) : Ordering :=
  if a.isEmpty ∨ b.isEmpty then natCmp b.length a.length
  else
    match zipCmp a b with
    | Ordering.eq => natCmp a.length b.length
    | o => o

/-- The non-strict order induced by a comparator, as used by Rust `sort_by`. -/
def sigLe (a b : Sig) : Bool := sigCmp a b ≠ Ordering.gt

/-- Stable insertion used to model Rust's stable `sort_by`. -/
def insertLe {α : Type} (le : α → α → Bool) (x : α) : List α → List α
  | [] => [x]
  | y :: ys => if le x y then x :: y :: ys else y :: insertLe le x ys

/-- Stable insertion sort, extensionally the stable `sort_by` of the source:
on every comparator used here, comparator-equal elements are equal, so any
stable (indeed any) sort yields this exact list. -/
def insSort {α : Type} (le : α → α → Bool) : List α → List α
  | [] => []
  | x :: xs => insertLe le x (insSort le xs)

/-- `parser.rs`: `ParsedExpression::get_sorted_term_sigs` (the `HashMap`
iterates its keys in arbitrary order; the sort's order is total and
antisymmetric on the distinct keys of the map, so the result is the same for
every iteration order and the insertion order is used here). -/
def getSortedTermSigs (pe : ParsedExpression) : List Sig :=
  insSort sigLe (pe.terms.map (fun kv => kv.1))

/-- `mod.rs`: extraction of one variable's `(name, exponent)` pair inside
`combine_like_terms`. -/
def varIdentifier : ASTNode → String × HashableFloat
  | ASTNode.var name exponent =>
    (name, ⟨match exponent with
            | ASTNode.number n => n
            | _ => 0⟩)
  | _ => ("", ⟨1⟩)

/-- `mod.rs`: the signature-sort comparator inside `combine_like_terms` —
name ascending, then exponent ascending. -/
def termIdCmp (a b : String × HashableFloat) : Ordering :=
  match strCmp a.1 b.1 with
  | Ordering.eq => qCmp a.2.val b.2.val
  | o => o

/-- Non-strict order for the inner `sort_by` of `combine_like_terms`. -/
def termIdLe (a b : String × HashableFloat) : Bool :=
  termIdCmp a b ≠ Ordering.gt

/-- `mod.rs`: the body of the `for` loop of `combine_like_terms`: fold one
AST node into the accumulated `ParsedExpression`. -/
def clStep (accumulator : ParsedExpression) (term : ASTNode) : ParsedExpression :=
  match term with
  | ASTNode.term coefficient vars =>
    let c : Fl := match coefficient with
      | ASTNode.number n => n
      | _ => 0
    if vars.length = 0 then addTerm accumulator [] c
    else
      let termIdentifier := insSort termIdLe (vars.map varIdentifier)
      addTerm accumulator termIdentifier c
  | _ => accumulator

/-- `mod.rs`: `Interpreter::combine_like_terms`. -/
def combineLikeTerms (terms : List ASTNode) : ParsedExpression :=
  terms.foldl clStep ParsedExpression.new

/-- Proof-side variant of `add_term` built on the exact merge. -/
def addTermExact (pe : ParsedExpression) (term : Sig) (coefficient : Fl) :
    ParsedExpression :=
  if Fl.beq coefficient 0 = false then
    if term.length > 0 then
      { terms := updateEntryExact pe.terms term coefficient,
        vars := insertVar pe.vars (term.headD ("", ⟨0⟩)).1 }
    else
      { pe with terms := updateEntryExact pe.terms [] coefficient }
  else pe

/-- Proof-side variant of the `combine_like_terms` step with exact merge. -/
def clStepExact (accumulator : ParsedExpression) (term : ASTNode) :
    ParsedExpression :=
  match term with
  | ASTNode.term coefficient vars =>
    let c : Fl := match coefficient with
      | ASTNode.number n => n
      | _ => 0
    if vars.length = 0 then addTermExact accumulator [] c
    else
      let termIdentifier := insSort termIdLe (vars.map varIdentifier)
      addTermExact accumulator termIdentifier c
  | _ => accumulator

/-- Proof-side variant of `combine_like_terms` with exact merge; the
pipeline's rounded fold collapses to it whenever the summed coefficient
magnitudes stay at or below `2^53 - 1`. -/
def combineLikeTermsExact (terms : List ASTNode) : ParsedExpression :=
  terms.foldl clStepExact ParsedExpression.new

/-- The signature `combine_like_terms` derives from a `Term` node (empty for
anything else: such nodes contribute nothing). -/
def termSig : ASTNode → Sig
  | ASTNode.term _ vars =>
    if vars.length = 0 then [] else insSort termIdLe (vars.map varIdentifier)
  | _ => []

/-- The coefficient `combine_like_terms` derives from a `Term` node (zero for
anything else: such nodes contribute nothing). -/
def termCoeff : ASTNode → Fl
  | ASTNode.term coefficient _ =>
    (match coefficient with
     | ASTNode.number n => n
     | _ => 0)
  | _ => 0

/-- `mod.rs`: the zero-scan loop of `print_out_expression`: break with a
cleared flag at the first nonzero coefficient (`!= 0.0` is `f64` equality),
otherwise set the flag and continue. -/
def zeroFlagLoop (keys : List Sig) (pe : ParsedExpression) (flag : Bool) : Bool :=
  match keys with
  | [] => flag
  | k :: rest =>
    if Fl.beq (getTermD pe k) 0 then zeroFlagLoop rest pe true
    else false

/-- `mod.rs`: rendering of a single signature's variables
(`*exponent != HashableFloat::new(1.0)` is negated `approx_eq`). -/
def renderSigVars (signature : Sig) : String :=
  String.join (signature.map
    (fun ve =>
      if approxEq ve.2 ⟨1⟩ = false then ve.1 ++ "^" ++ renderQ ve.2.val
      else ve.1))

/-- `mod.rs`: `Interpreter::print_out_expression`.  The indexed loop with a
`" + "` pushed after every non-final term is written as `intercalate`. -/
def printOutExpression (pe : ParsedExpression) : String :=
  let keys := getSortedTermSigs pe
  let zeroFlag := zeroFlagLoop keys pe false
  if keys.length = 0 ∨ zeroFlag = true then "0"
  else
    String.intercalate " + "
      (keys.map (fun signature =>
        let coefficient := getTermD pe signature
        (if approxEq ⟨coefficient⟩ ⟨1⟩ = false ∨ signature.length = 0 then
           renderQ coefficient
         else "") ++ renderSigVars signature))

/-- `mod.rs`: `Interpreter::solve`. -/
def solve (terms : List ASTNode) : Except InterpreterError String :=
  if terms.length = 0 then Except.ok ""
  else Except.ok (printOutExpression (combineLikeTerms terms))

/-- `mod.rs`: `Interpreter::interpret`. -/
def interpret (astHead : ASTNode) : Except InterpreterError String :=
  match astHead with
  | ASTNode.number n => Except.ok (renderQ n)
  | ASTNode.expression terms => solve terms
  | _ => Except.error (InterpreterError.new "Invalid interpretation input")

/-- The full pipeline as composed in `tests.rs` and `main.rs`: lex, parse,
interpret.  `none` records a diverging parse loop. -/
def run (input : String) : Option (Except InterpreterError String) :=
  match parse (lex input) with
  | none => none
  | some (Except.error e) => some (Except.error e)
  | some (Except.ok ast) => some (interpret ast)

/-- Joining a list of textual terms with `+`, as in the order-independence
property of the spec (whitespace around `+` is skipped by the lexer). -/
def joinPlus : List String → String
  | [] => ""
  | [s] => s
  | s :: rest => s ++ " + " ++ joinPlus rest

/-- The coefficient of a successfully parsed term, when it is a `Number`. -/
def parsedCoeff : Except InterpreterError (ASTNode × List Token) → Option Fl
  | Except.ok (ASTNode.term (ASTNode.number k) _, _) => some k
  | _ => none

/-- Number of `Number` tokens in a token list (used to express "no digit
tokens were consumed"). -/
def numberCount (ts : List Token) : ℕ :=
  (ts.filter (fun t => match t with | Token.number _ => true | _ => false)).length

/-- First operand of the claim C5 counterexample: `2^-53`, exactly
representable as an `f64` (plain power of two), on which every operation of
`approx_eq` and `normalized` is exact, so the computation below coincides
with the `f64` one. -/
def c5a : HashableFloat := ⟨⟨1, 9007199254740992⟩⟩

/-- Second operand of the claim C5 counterexample:
`2^-53 - 2^-106 = 2^-53 * (1 - 2^-53)`, whose 53-bit significand is exactly
representable as an `f64`; its quotient by `EPS` is `1/2 - 2^-54`, also
exactly representable, so the `f64` computation is exact as well. -/
def c5b : HashableFloat := ⟨⟨9007199254740991, 81129638414606681695789005144064⟩⟩

/-- The signature used by the claim C6 counterexample. -/
def c6sig : Sig := [("x", ⟨1⟩), ("y", ⟨1⟩)]

/-- The name order used by the specification text: strict lexicographic
order on the characters of the variable names ("variable name ascending"). -/
def specStrLt : List Char → List Char → Prop
  | [], [] => False
  | [], _ :: _ => True
  | _ :: _, [] => False
  | a :: ra, b :: rb => a < b ∨ (a = b ∧ specStrLt ra rb)

/-- The pairwise signature order described by claim C8, written from the
claim's words: compare position by position, names ascending and exponent
values descending (numeric comparison of the exact fractions), the shorter
signature coming first when all compared positions agree. -/
def specLexLe : Sig → Sig → Prop
  | [], _ => True
  | _ :: _, [] => False
  | (na, ea) :: ra, (nb, eb) :: rb =>
    specStrLt na.data nb.data ∨
      (na = nb ∧
        (eb.val.n * (ea.val.d : ℤ) < ea.val.n * (eb.val.d : ℤ) ∨
          (ea.val.n * (eb.val.d : ℤ) = eb.val.n * (ea.val.d : ℤ) ∧
            specLexLe ra rb)))

/-- The full signature order of claim C8: the empty signature (constants
bucket) comes last; two non-empty signatures are ordered by `specLexLe`. -/
def sigSpecLe (a b : Sig) : Prop :=
  if a = [] then b = [] else (b = [] ∨ specLexLe a b)

/-- Positive-denominator condition: the exact fractions that model actual
`f64` values always have a positive denominator. -/
def sigPosDen (sig : Sig) : Prop := ∀ p ∈ sig, 0 < p.2.val.d

/-- The composite of `zipCmp` with the length fallback, in the standard
lexicographic form (proved equal to the source comparator on non-empty
signatures). -/
def lexCmp : Sig → Sig → Ordering
  | [], [] => Ordering.eq
  | [], _ :: _ => Ordering.lt
  | _ :: _, [] => Ordering.gt
  | (na, ea) :: ra, (nb, eb) :: rb =>
    match strCmp na nb with
    | Ordering.eq =>
      match qCmp eb.val ea.val with
      | Ordering.eq => lexCmp ra rb
      | o => o
    | o => o

/-- Componentwise equivalence of signatures: equal names and `f64`-equal
exponents at every position, with equal lengths. -/
def sigEqv : Sig → Sig → Prop
  | [], [] => True
  | (na, ea) :: ra, (nb, eb) :: rb =>
    na = nb ∧ Fl.beq ea.val eb.val = true ∧ sigEqv ra rb
  | _, _ => False

/-- All-exponents-integral condition: denominator literally `1`, as holds for
every signature the parser can produce. -/
def sigDen1 (sig : Sig) : Prop := ∀ p ∈ sig, p.2.val.d = 1

/-- The maximal run of leading `Number` tokens — the digits that the loop of
`parse_constant` will consume. -/
def digitRun : List Token → List Fl
  | Token.number n :: rest => n :: digitRun rest
  | _ => []

/-- The *exact* value of the digits `ds` appended to `acc`: repeated exact
`acc * 10 + d`.  This is the "accumulated value" in the words of the
specification; the source's accumulator (`raccFrom`) rounds each step, and
the two part ways on numerals long enough for rounding to matter. -/
def accFrom (acc : Fl) (ds : List Fl) : Fl :=
  ds.foldl (fun a d => a * 10 + d) acc

/-- The value of the source's `f64` accumulator after consuming the digits
`ds` starting from `acc`: the rounded `roundStep` iterated, exactly as in
the loop of `parse_constant`. -/
def raccFrom (acc : Fl) (ds : List Fl) : Fl :=
  ds.foldl roundStep acc

/-- Whether the *exact* accumulated value strictly exceeds `FMAX / 10`
before some next digit of `ds` would be consumed — the claim's reading of
the overflow condition, evaluated with exact arithmetic (equivalent to a
strict-exceedance prefix condition on `accFrom`; see the theorem relating
the two). -/
def exceedsExact : List Fl → Fl → Bool
  | [], _ => false
  | d :: rest, acc =>
    if Fl.blt (FMAX / 10) acc then true
    else exceedsExact rest (acc * 10 + d)

/-- A numeral of `k` nine digits: the largest `k`-digit numeral, used to
exhibit the exact length at which the overflow guard of `parse_constant`
fires. -/
def nines (k : ℕ) : String := String.mk (List.replicate k '9')

/-- A 309-digit numeral separating the exact accumulated value from the
rounded one: its first 308 digits spell `floor(FMAX / 10) + 1` (an exact
value strictly above `FMAX / 10`), followed by a final `0`.  The rounded
`f64` accumulator never reaches the guard constant `TFDIV` on it, so the
source parses it successfully. -/
def c7num : String := "179769313486231570814527423731704356798070567525844996598917476803157260780028538760589558632766878171540458953514382464234321326889464182768467546703537516986049910576551282076245490090389328944075868508455133942304583236903222948165808559332123348274797826204144723168738177180919299881250404026184124858370"

/-- Whether a pipeline result is a terminating run that returned the typed
`InterpreterError`. -/
def isRunErr : Option (Except InterpreterError String) → Bool
  | some (Except.error _) => true
  | _ => false

/-- Whether a pipeline result is a terminating successful run. -/
def isRunOk : Option (Except InterpreterError String) → Bool
  | some (Except.ok _) => true
  | _ => false

/-- Whether a token queue ends in a `Number` or `Identifier` token.  A term
whose tokens end this way cannot swallow a following `+` separator (a
trailing sign or `^` would). -/
def lastTokOk : List Token → Bool
  | [] => false
  | [Token.number _] => true
  | [Token.identifier _] => true
  | [Token.symbol _] => false
  | _ :: t :: rest => lastTokOk (t :: rest)

/-- Whether a parse-step result succeeded consuming its whole queue. -/
def consumesAll : Except InterpreterError (ASTNode × List Token) → Bool
  | Except.ok (_, []) => true
  | _ => false

/-- The term node a textual piece parses to (default for failing pieces,
never used on pieces accepted by `goodPiece`). -/
def pieceTermD (s : String) : ASTNode :=
  match parseTerm (lex s) with
  | Except.ok (t, _) => t
  | _ => ASTNode.number 0

/-- A well-formed textual term for the order-independence property: it lexes
to a nonempty queue ending in a digit or identifier (no dangling `^` or
sign), and `parse_term` accepts it consuming every token. -/
def goodPiece (s : String) : Bool :=
  lastTokOk (lex s) && consumesAll (parseTerm (lex s))

/-- The coefficient value a textual piece contributes to the canonical
map: the coefficient of the term it parses to. -/
def pieceCoeff (s : String) : Fl := termCoeff (pieceTermD s)

/-- A `Var` node whose exponent, when it is a `Number`, is integral (the only
exponents the parser ever builds). -/
def varExpDen1 : ASTNode → Prop
  | ASTNode.var _ (ASTNode.number n) => n.d = 1
  | _ => True

/-- A `Term` node all of whose variable exponents are integral. -/
def termDen1 : ASTNode → Prop
  | ASTNode.term _ vs => ∀ v ∈ vs, varExpDen1 v
  | _ => True

/-- All keys of a canonical-map entry list carry integral exponents. -/
def keysDen1 (l : List (Sig × Fl)) : Prop := ∀ kv ∈ l, sigDen1 kv.1

/-- The keys of a canonical-map entry list are pairwise distinct, as holds
for every `HashMap` state. -/
def keysNodup (l : List (Sig × Fl)) : Prop :=
  List.Pairwise (fun p q : Sig × Fl => p.1 ≠ q.1) l

/-- All stored coefficients of a canonical-map entry list are integer-valued
doubles (denominator literally `1`), as holds for every state the pipeline
builds. -/
def coeffsDen1 (l : List (Sig × Fl)) : Prop := ∀ p ∈ l, p.2.d = 1

/-- Sum of the absolute values of the stored coefficients' numerators. -/
def mapAbsSum (l : List (Sig × Fl)) : ℕ := (l.map (fun p => p.2.n.natAbs)).sum

/-- Sum of the absolute coefficient values of a term-node list. -/
def termsAbsSum (ts : List ASTNode) : ℕ :=
  (ts.map (fun t => (termCoeff t).n.natAbs)).sum

/-! ## Theorems -/

/-- Claim C1 (code bug evidence): the claim asserts `Parser::parse` always
terminates, consuming the whole queue or failing, and that `parse_term` never
leaves the queue length unchanged while the loop continues.  On the token
sequence that the lexer produces for the input `"*"`, `parse_term` succeeds
while consuming nothing, so the `while tokens.len() > 0` loop of
`parse_expression` never exits: no amount of fuel makes the loop terminate,
and the whole pipeline diverges. -/
theorem c1_parse_diverges_on_star :
    lex "*" = [Token.symbol '*'] ∧
    parseTerm [Token.symbol '*'] =
      Except.ok (ASTNode.term (ASTNode.number 0) [], [Token.symbol '*']) ∧
    (∀ fuel : ℕ, parseExpressionFuel fuel [Token.symbol '*'] = none) ∧
    run "*" = none := by
  refine ⟨by rfl, by rfl, ?_, by rfl⟩
  intro fuel
  induction fuel with
  | zero => rfl
  | succ n ih =>
    have h : parseExpressionFuel (n + 1) [Token.symbol '*'] =
        match parseExpressionFuel n [Token.symbol '*'] with
        | none => none
        | some (Except.error e) => some (Except.error e)
        | some (Except.ok terms) =>
          some (Except.ok (ASTNode.term (ASTNode.number 0) [] :: terms)) := by rfl
    rw [h, ih]

/-- Claim C10: every input that lexes to an empty token stream runs to the
output `""` (not `"0"`): the parse loop immediately yields an expression with
zero terms, and `solve` short-circuits before the renderer is reached. -/
theorem c10_empty_input (s : String) (h : lex s = []) :
    run s = some (Except.ok "") ∧
    interpret (ASTNode.expression []) = Except.ok "" ∧
    ("" : String) ≠ "0" := by
  refine ⟨?_, rfl, by decide⟩
  show (match parse (lex s) with
        | none => none
        | some (Except.error e) => some (Except.error e)
        | some (Except.ok ast) => some (interpret ast)) = some (Except.ok "")
  rw [h]
  rfl

theorem c10_empty_input_witness :
    lex "" = [] ∧ run "" = some (Except.ok "") :=
  ⟨rfl, (c10_empty_input "" rfl).1⟩

/-- Claim C5 (counterexample): `approx_eq` does not imply equal hashes.  The
values `2^-53` and `2^-53 - 2^-106` are equal under the relative-epsilon
comparison (relative difference `2^-53 < EPS`), but they round to different
multiples of machine epsilon (`1/2` rounds away from zero to `1`, while
`1/2 - 2^-54` rounds to `0`), so their hashed bit patterns differ.  Both
values and every intermediate `f64` operation here are exact, so this is a
genuine counterexample for the source as well. -/
theorem c5_counterexample :
    approxEq c5a c5b = true ∧
    Fl.beq (normalized c5a) (normalized c5b) = false ∧
    Fl.beq (hashHF c5a) (hashHF c5b) = false := by decide

/-- Claim C5 (amended): two `HashableFloat` values that are `approx_eq`-equal
hash identically provided they also round to the same multiple of machine
epsilon (equal `normalized` values); `approx_eq` alone does not suffice. -/
theorem c5_amended (a b : HashableFloat) (_h1 : approxEq a b = true)
    (h2 : normalized a = normalized b) :
    hashHF a = hashHF b := by
  unfold hashHF
  rw [h2]

theorem c5_amended_witness :
    approxEq ⟨(1 : Fl)⟩ ⟨(1 : Fl)⟩ = true ∧
    hashHF ⟨(1 : Fl)⟩ = hashHF ⟨(1 : Fl)⟩ :=
  ⟨by decide, c5_amended ⟨(1 : Fl)⟩ ⟨(1 : Fl)⟩ (by decide) rfl⟩

/-- Claim C6 (counterexample): `add_term` records only `term[0].0` — the
first variable name of the signature — in the companion set.  Adding the
two-variable signature `x·y` leaves `"y"` outside `get_variables`, although
`("y", 1)` appears in the added signature. -/
theorem c6_counterexample :
    ("y", (⟨1⟩ : HashableFloat)) ∈ c6sig ∧
    getVariables (addTerm ParsedExpression.new c6sig 2) = ["x"] ∧
    "y" ∉ getVariables (addTerm ParsedExpression.new c6sig 2) := by decide

set_option maxRecDepth 4000 in
/-- Claim C9 (counterexample): rendering is not idempotent over the pipeline.
`"2yx^3"` renders to `"2x^3y"`, but the lexer splits `"2x^3y"` into the two
terms `2x^3` and `y` (the digit `3` flushes the identifier), which re-render
as `"2x^3 + y"`. -/
theorem c9_counterexample :
    run "2yx^3" = some (Except.ok "2x^3y") ∧
    run "2x^3y" = some (Except.ok "2x^3 + y") ∧
    ("2x^3 + y" : String) ≠ "2x^3y" := by
  refine ⟨by rfl, by rfl, by decide⟩

/-- Claim C2 (counterexample): the claim states that whenever a parsed term
has variables, the constant step produced exactly `0`, and no digit tokens
were consumed, the coefficient is `Number(1)` — and in particular that a
sign-only prefix such as `"-x"` gets coefficient `1`.  But the code tracks
"no digits consumed" by comparing queue lengths, and the sign token of
`"-x"` changes the length: the constant step on `lex "-x"` consumes the `-`
(one token, no digit tokens — `numberCount` is unchanged at `0`), produces
the value `0`, yet the parsed coefficient is `Number(0)`, not `Number(1)`. -/
theorem c2_counterexample :
    lex "-x" = [Token.symbol '-', Token.identifier "x"] ∧
    parseConstant (lex "-x") =
      Except.ok (ASTNode.number (Fl.mul 0 (-1)), [Token.identifier "x"]) ∧
    Fl.beq (Fl.mul 0 (-1)) 0 = true ∧
    numberCount (lex "-x") = 0 ∧
    parsedCoeff (parseTerm (lex "-x")) = some 0 ∧
    Fl.beq 0 1 = false := by
  refine ⟨by rfl, by rfl, by decide, by rfl, by rfl, by decide⟩

/-- Claim C2 (amended): the coefficient of a parsed term is `Number(1)` iff
the term has variables, the constant step produced the value `0`, and the
token-queue length is unchanged by constant parsing (no sign *or* digit
tokens consumed); when the length changed but the constant is zero (as for
`"0x"` or `"-x"`), the coefficient is `Number(0)`; otherwise it is the
signed parsed constant.  `"x"` parses with coefficient `1`, `"0x"` and
`"-x"` with coefficient `0`. -/
theorem c2_amended (ts ts1 ts2 : List Token) (c : Fl) (vs : List ASTNode)
    (hc : parseConstant ts = Except.ok (ASTNode.number c, ts1))
    (hv : parseOptionalVariables ts1 = Except.ok (vs, ts2)) :
    ((vs ≠ [] → Fl.beq c 0 = true → ts.length = ts1.length →
        parseTerm ts = Except.ok (ASTNode.term (ASTNode.number 1) vs, popPlus ts2)) ∧
     (vs ≠ [] → Fl.beq c 0 = true → ts.length ≠ ts1.length →
        parseTerm ts = Except.ok (ASTNode.term (ASTNode.number 0) vs, popPlus ts2)) ∧
     (vs = [] ∨ Fl.beq c 0 = false →
        parseTerm ts = Except.ok (ASTNode.term (ASTNode.number c) vs, popPlus ts2))) ∧
    parsedCoeff (parseTerm (lex "x")) = some 1 ∧
    parsedCoeff (parseTerm (lex "0x")) = some 0 ∧
    parsedCoeff (parseTerm (lex "-x")) = some 0 := by
  refine ⟨⟨?_, ?_, ?_⟩, by rfl, by rfl, by rfl⟩
  · intro hvs hz hlen
    simp only [parseTerm, hc, hv, astIsZero, hz, Bool.and_true]
    have : decide (vs.length > 0) = true := by
      simpa using List.length_pos.mpr hvs
    simp [this, hlen]
  · intro hvs hz hlen
    simp only [parseTerm, hc, hv, astIsZero, hz, Bool.and_true]
    have : decide (vs.length > 0) = true := by
      simpa using List.length_pos.mpr hvs
    simp [this, hlen]
  · intro h
    cases h with
    | inl h =>
      simp [parseTerm, hc, hv, h]
    | inr h =>
      simp [parseTerm, hc, hv, astIsZero, h]

theorem c2_amended_witness :
    parseConstant (lex "-x") =
      Except.ok (ASTNode.number (Fl.mul 0 (-1)), [Token.identifier "x"]) ∧
    parseOptionalVariables [Token.identifier "x"] =
      Except.ok ([ASTNode.var "x" (ASTNode.number 1)], []) ∧
    parseTerm (lex "-x") =
      Except.ok (ASTNode.term (ASTNode.number 0)
        [ASTNode.var "x" (ASTNode.number 1)], []) := by
  refine ⟨by rfl, by rfl, ?_⟩
  exact (c2_amended (lex "-x") [Token.identifier "x"] [] (Fl.mul 0 (-1))
    [ASTNode.var "x" (ASTNode.number 1)] (by rfl) (by rfl)).1.2.1
    (by simp) (by decide) (by decide)

/-- A stored coefficient that is the `f64` value `0` makes `get_term` report
a zero value for every probe. -/
theorem getTermD_beq_zero (pe : ParsedExpression)
    (h : ∀ kv ∈ pe.terms, Fl.beq kv.2 0 = true) (k : Sig) :
    Fl.beq (getTermD pe k) 0 = true := by
  unfold getTermD getTerm
  cases hf : pe.terms.find? (fun kv => sigKeyEqb kv.1 k) with
  | none => decide
  | some kv =>
    have hm : kv ∈ pe.terms := List.mem_of_find?_eq_some hf
    simpa using h kv hm

/-- The zero-scan loop of the renderer ends `true` on a nonempty key list
whenever every stored coefficient is zero. -/
theorem zeroFlagLoop_eq (pe : ParsedExpression)
    (h : ∀ kv ∈ pe.terms, Fl.beq kv.2 0 = true) :
    ∀ ks flag, zeroFlagLoop ks pe flag = if ks = [] then flag else true := by
  intro ks
  induction ks with
  | nil => intro flag; rfl
  | cons k rest ih =>
    intro flag
    simp only [zeroFlagLoop, getTermD_beq_zero pe h k, if_true, ih true]
    cases rest <;> simp

set_option maxRecDepth 4000 in
/-- Claim C4: the renderer outputs exactly `"0"` whenever the canonical map
has no signatures or every stored signature maps to a zero coefficient, and
each of the spec's all-zero example inputs runs to `"0"`. -/
theorem c4_zero_renders_zero (pe : ParsedExpression)
    (h : pe.terms = [] ∨ ∀ kv ∈ pe.terms, Fl.beq kv.2 0 = true) :
    printOutExpression pe = "0" ∧
    run "0" = some (Except.ok "0") ∧
    run "0x" = some (Except.ok "0") ∧
    run "0x^0" = some (Except.ok "0") ∧
    run "0x + 0" = some (Except.ok "0") ∧
    run "0x^0 + 0y + 0" = some (Except.ok "0") := by
  refine ⟨?_, by rfl, by rfl, by rfl, by rfl, by rfl⟩
  cases h with
  | inl h =>
    obtain ⟨tms, vs⟩ := pe
    have h2 : tms = [] := h
    subst h2
    rfl
  | inr h =>
    by_cases hk : getSortedTermSigs pe = []
    · simp [printOutExpression, hk]
    · have hz := zeroFlagLoop_eq pe h (getSortedTermSigs pe) false
      rw [if_neg hk] at hz
      simp [printOutExpression, hz]

theorem c4_zero_renders_zero_witness :
    printOutExpression ParsedExpression.new = "0" :=
  (c4_zero_renders_zero ParsedExpression.new (Or.inl rfl)).1

/-- `HashSet::insert` preserves membership. -/
theorem insertVar_mem (l : List String) (s x : String) (h : x ∈ l) :
    x ∈ insertVar l s := by
  unfold insertVar
  split_ifs
  · exact h
  · exact List.mem_append_left _ h

/-- `HashSet::insert` makes the inserted element a member. -/
theorem insertVar_self (l : List String) (s : String) : s ∈ insertVar l s := by
  unfold insertVar
  split_ifs with hs
  · exact hs
  · exact List.mem_append_right _ (List.mem_singleton_self s)

/-- `add_term` never removes a name from the companion set. -/
theorem addTerm_vars_mono (pe : ParsedExpression) (sig : Sig) (c : Fl)
    (x : String) (h : x ∈ pe.vars) : x ∈ (addTerm pe sig c).vars := by
  unfold addTerm
  split_ifs
  · exact insertVar_mem _ _ _ h
  · exact h
  · exact h

/-- `add_term` with a nonzero coefficient and a nonempty signature records
the first variable name of the signature. -/
theorem addTerm_vars_head (pe : ParsedExpression) (sig : Sig) (c : Fl)
    (hc : Fl.beq c 0 = false) (hs : sig ≠ []) :
    (sig.headD ("", ⟨0⟩)).1 ∈ (addTerm pe sig c).vars := by
  unfold addTerm
  rw [if_pos hc, if_pos (List.length_pos.mpr hs)]
  exact insertVar_self _ _

/-- Folding `add_term` calls never removes a name from the companion set. -/
theorem foldlAddTerm_vars_mono (calls : List (Sig × Fl)) :
    ∀ (pe : ParsedExpression) (x : String), x ∈ pe.vars →
      x ∈ (calls.foldl (fun a c => addTerm a c.1 c.2) pe).vars := by
  induction calls with
  | nil => intro pe x h; exact h
  | cons q rest ih =>
    intro pe x h
    exact ih (addTerm pe q.1 q.2) x (addTerm_vars_mono pe q.1 q.2 x h)

/-- Claim C6 (amended): after any sequence of `add_term` calls starting from
a fresh `ParsedExpression`, the companion set contains the *first* variable
name of every signature added with a nonzero coefficient (not every name in
the signature: see the counterexample). -/
theorem c6_amended (calls : List (Sig × Fl)) (p : Sig × Fl) (hp : p ∈ calls)
    (hc : Fl.beq p.2 0 = false) (hs : p.1 ≠ []) :
    (p.1.headD ("", ⟨0⟩)).1 ∈
      getVariables (calls.foldl (fun a c => addTerm a c.1 c.2)
        ParsedExpression.new) := by
  have main : ∀ (l : List (Sig × Fl)) (pe0 : ParsedExpression), p ∈ l →
      (p.1.headD ("", ⟨0⟩)).1 ∈ (l.foldl (fun a c => addTerm a c.1 c.2) pe0).vars := by
    intro l
    induction l with
    | nil => intro pe0 hmem; cases hmem
    | cons q rest ih =>
      intro pe0 hmem
      cases List.mem_cons.mp hmem with
      | inl heq =>
        subst heq
        exact foldlAddTerm_vars_mono rest (addTerm pe0 p.1 p.2) _
          (addTerm_vars_head pe0 p.1 p.2 hc hs)
      | inr hmem2 => exact ih (addTerm pe0 q.1 q.2) hmem2
  exact main calls ParsedExpression.new hp

theorem c6_amended_witness :
    ("x" : String) ∈
      getVariables ([(([("x", ⟨1⟩)] : Sig), (2 : Fl))].foldl
        (fun a c => addTerm a c.1 c.2) ParsedExpression.new) :=
  c6_amended [(([("x", ⟨1⟩)] : Sig), (2 : Fl))] (([("x", ⟨1⟩)] : Sig), (2 : Fl))
    (List.mem_singleton_self _) (by decide) (by decide)

set_option maxRecDepth 4000 in
/-- Claim C9 (amended): round-trip idempotence does not hold for every
successful input (see the counterexample), and even canonical outputs need
not re-parse to themselves (a multi-variable signature re-lexes into
several terms, and a long coefficient numeral re-parses through the digit
loop's per-digit rounding to a different double); what holds is that these
four concrete inputs — among them the
specification's own example `"100x^2 + 200x + 300"` — are fixed points of
the pipeline: running the pipeline on each returns it unchanged. -/
theorem c9_amended_fixed_points :
    run "100x^2 + 200x + 300" = some (Except.ok "100x^2 + 200x + 300") ∧
    run "x^2 + xy + y^2" = some (Except.ok "x^2 + xy + y^2") ∧
    run "xyz" = some (Except.ok "xyz") ∧
    run "0" = some (Except.ok "0") := by
  refine ⟨by rfl, by rfl, by rfl, by rfl⟩

/-! ### Properties of the value comparisons -/

theorem Fl.beq_iff (a b : Fl) :
    Fl.beq a b = true ↔ a.n * (b.d : ℤ) = b.n * (a.d : ℤ) := by
  simp [Fl.beq]

theorem Fl.blt_iff (a b : Fl) :
    Fl.blt a b = true ↔ a.n * (b.d : ℤ) < b.n * (a.d : ℤ) := by
  simp [Fl.blt]

theorem Fl.ble_iff (a b : Fl) :
    Fl.ble a b = true ↔ a.n * (b.d : ℤ) ≤ b.n * (a.d : ℤ) := by
  simp [Fl.ble]

theorem Fl.beq_refl (a : Fl) : Fl.beq a a = true := by
  simp [Fl.beq]

theorem Fl.beq_symm {a b : Fl} (h : Fl.beq a b = true) : Fl.beq b a = true := by
  rw [Fl.beq_iff] at h ⊢
  omega

theorem Fl.blt_false_of_beq {a b : Fl} (h : Fl.beq a b = true) :
    Fl.blt a b = false := by
  rw [Fl.beq_iff] at h
  rw [Bool.eq_false_iff]
  intro hlt
  rw [Fl.blt_iff] at hlt
  omega

theorem Fl.trichotomy (a b : Fl) :
    Fl.blt a b = true ∨ Fl.beq a b = true ∨ Fl.blt b a = true := by
  rw [Fl.blt_iff, Fl.beq_iff, Fl.blt_iff]
  omega

theorem Fl.blt_asymm {a b : Fl} (h : Fl.blt a b = true) :
    Fl.blt b a = false := by
  rw [Fl.blt_iff] at h
  rw [Bool.eq_false_iff]
  intro hlt
  rw [Fl.blt_iff] at hlt
  omega

theorem Fl.beq_trans {a b c : Fl} (hb : 0 < b.d)
    (h1 : Fl.beq a b = true) (h2 : Fl.beq b c = true) : Fl.beq a c = true := by
  rw [Fl.beq_iff] at h1 h2 ⊢
  have hb' : (0 : ℤ) < b.d := by exact_mod_cast hb
  have h3 : a.n * c.d * b.d = c.n * a.d * b.d := by
    linear_combination (c.d : ℤ) * h1 + (a.d : ℤ) * h2
  exact mul_right_cancel₀ hb'.ne' h3

theorem Fl.blt_trans {a b c : Fl} (ha : 0 < a.d) (hb : 0 < b.d) (hc : 0 < c.d)
    (h1 : Fl.blt a b = true) (h2 : Fl.blt b c = true) : Fl.blt a c = true := by
  rw [Fl.blt_iff] at h1 h2 ⊢
  have ha' : (0 : ℤ) < a.d := by exact_mod_cast ha
  have hb' : (0 : ℤ) < b.d := by exact_mod_cast hb
  have hc' : (0 : ℤ) < c.d := by exact_mod_cast hc
  have key : a.n * c.d * b.d < c.n * a.d * b.d := by
    calc a.n * c.d * b.d = a.n * b.d * c.d := by ring
    _ < b.n * a.d * c.d := by exact mul_lt_mul_of_pos_right h1 hc'
    _ = b.n * c.d * a.d := by ring
    _ < c.n * b.d * a.d := by exact mul_lt_mul_of_pos_right h2 ha'
    _ = c.n * a.d * b.d := by ring
  exact lt_of_mul_lt_mul_right key hb'.le

theorem Fl.blt_of_beq_of_blt {a b c : Fl} (ha : 0 < a.d) (hb : 0 < b.d)
    (h1 : Fl.beq a b = true) (h2 : Fl.blt b c = true) : Fl.blt a c = true := by
  rw [Fl.beq_iff] at h1
  rw [Fl.blt_iff] at h2 ⊢
  have ha' : (0 : ℤ) < a.d := by exact_mod_cast ha
  have hb' : (0 : ℤ) < b.d := by exact_mod_cast hb
  have key : a.n * c.d * b.d < c.n * a.d * b.d := by
    calc a.n * c.d * b.d = a.n * b.d * c.d := by ring
    _ = b.n * a.d * c.d := by rw [h1]
    _ = b.n * c.d * a.d := by ring
    _ < c.n * b.d * a.d := by exact mul_lt_mul_of_pos_right h2 ha'
    _ = c.n * a.d * b.d := by ring
  exact lt_of_mul_lt_mul_right key hb'.le

theorem Fl.blt_of_blt_of_beq {a b c : Fl} (hb : 0 < b.d) (hc : 0 < c.d)
    (h1 : Fl.blt a b = true) (h2 : Fl.beq b c = true) : Fl.blt a c = true := by
  rw [Fl.blt_iff] at h1 ⊢
  rw [Fl.beq_iff] at h2
  have hb' : (0 : ℤ) < b.d := by exact_mod_cast hb
  have hc' : (0 : ℤ) < c.d := by exact_mod_cast hc
  have key : a.n * c.d * b.d < c.n * a.d * b.d := by
    calc a.n * c.d * b.d = a.n * b.d * c.d := by ring
    _ < b.n * a.d * c.d := by exact mul_lt_mul_of_pos_right h1 hc'
    _ = b.n * c.d * a.d := by ring
    _ = c.n * b.d * a.d := by rw [h2]
    _ = c.n * a.d * b.d := by ring
  exact lt_of_mul_lt_mul_right key hb'.le

theorem Fl.eq_of_beq_den1 {a b : Fl} (ha : a.d = 1) (hb : b.d = 1)
    (h : Fl.beq a b = true) : a = b := by
  rw [Fl.beq_iff, ha, hb] at h
  obtain ⟨an, ad⟩ := a
  obtain ⟨bn, bd⟩ := b
  simp only at h ha hb
  subst ha
  subst hb
  simp only [Nat.cast_one, mul_one] at h
  rw [h]

theorem qCmp_eq_iff (a b : Fl) : qCmp a b = Ordering.eq ↔ Fl.beq a b = true := by
  unfold qCmp
  constructor
  · intro h
    by_cases h1 : Fl.blt a b = true
    · simp [h1] at h
    · by_cases h2 : Fl.beq a b = true
      · exact h2
      · simp [h1, h2] at h
  · intro h
    rw [Fl.blt_false_of_beq h]
    simp [h]

theorem qCmp_lt_iff (a b : Fl) : qCmp a b = Ordering.lt ↔ Fl.blt a b = true := by
  unfold qCmp
  constructor
  · intro h
    by_cases h1 : Fl.blt a b = true
    · exact h1
    · by_cases h2 : Fl.beq a b = true <;> simp [h1, h2] at h
  · intro h
    simp [h]

theorem qCmp_swap (a b : Fl) : qCmp b a = (qCmp a b).swap := by
  unfold qCmp
  rcases Fl.trichotomy a b with h | h | h
  · rw [Fl.blt_asymm h]
    have hba : Fl.beq b a = false := by
      rw [Bool.eq_false_iff]
      intro hbeq
      rw [Fl.blt_false_of_beq (Fl.beq_symm hbeq)] at h
      cases h
    simp [h, hba, Ordering.swap]
  · rw [Fl.blt_false_of_beq h, Fl.blt_false_of_beq (Fl.beq_symm h)]
    simp [h, Fl.beq_symm h, Ordering.swap]
  · rw [Fl.blt_asymm h]
    have hab : Fl.beq a b = false := by
      rw [Bool.eq_false_iff]
      intro hbeq
      rw [Fl.blt_false_of_beq (Fl.beq_symm hbeq)] at h
      cases h
    simp [h, hab, Ordering.swap]

theorem natCmp_eq_iff (a b : ℕ) : natCmp a b = Ordering.eq ↔ a = b := by
  unfold natCmp
  split_ifs with h1 h2
  · exact ⟨fun h => absurd h (by decide), fun h => absurd h (by omega)⟩
  · simp [h2]
  · exact ⟨fun h => absurd h (by decide), fun h => absurd h (by omega)⟩

theorem natCmp_lt_iff (a b : ℕ) : natCmp a b = Ordering.lt ↔ a < b := by
  unfold natCmp
  split_ifs with h1 h2
  · simp [h1]
  · exact ⟨fun h => absurd h (by decide), fun h => absurd h (by omega)⟩
  · exact ⟨fun h => absurd h (by decide), fun h => absurd h (by omega)⟩

theorem natCmp_gt_iff (a b : ℕ) : natCmp a b = Ordering.gt ↔ b < a := by
  unfold natCmp
  split_ifs with h1 h2
  · exact ⟨fun h => absurd h (by decide), fun h => absurd h (by omega)⟩
  · exact ⟨fun h => absurd h (by decide), fun h => absurd h (by omega)⟩
  · constructor
    · intro _
      omega
    · intro _
      rfl

theorem natCmp_swap (a b : ℕ) : natCmp b a = (natCmp a b).swap := by
  unfold natCmp
  split_ifs <;> first | rfl | omega

theorem charCmp_eq_iff (a b : Char) : charCmp a b = Ordering.eq ↔ a = b := by
  unfold charCmp
  rw [natCmp_eq_iff]
  constructor
  · intro h
    have h2 : Char.ofNat a.toNat = Char.ofNat b.toNat := by rw [h]
    rwa [Char.ofNat_toNat, Char.ofNat_toNat] at h2
  · intro h
    rw [h]

theorem charCmp_swap (a b : Char) : charCmp b a = (charCmp a b).swap :=
  natCmp_swap _ _

theorem charCmp_lt_trans {a b c : Char} (h1 : charCmp a b = Ordering.lt)
    (h2 : charCmp b c = Ordering.lt) : charCmp a c = Ordering.lt := by
  unfold charCmp at h1 h2 ⊢
  rw [natCmp_lt_iff] at h1 h2 ⊢
  omega

theorem charCmp_lt_iff (a b : Char) : charCmp a b = Ordering.lt ↔ a < b := by
  unfold charCmp
  rw [natCmp_lt_iff]
  exact Iff.symm Char.lt_iff_val_lt_val

theorem charsCmp_eq_iff : ∀ x y : List Char, charsCmp x y = Ordering.eq ↔ x = y
  | [], [] => by simp [charsCmp]
  | [], _ :: _ => by simp [charsCmp]
  | _ :: _, [] => by simp [charsCmp]
  | a :: ra, b :: rb => by
    unfold charsCmp
    cases hab : charCmp a b with
    | eq =>
      have : a = b := (charCmp_eq_iff a b).mp hab
      subst this
      rw [charsCmp_eq_iff ra rb]
      simp
    | lt =>
      simp only []
      constructor
      · intro h
        exact absurd h (by decide)
      · intro h
        injection h with h1 h2
        subst h1
        rw [(charCmp_eq_iff a a).mpr rfl] at hab
        cases hab
    | gt =>
      simp only []
      constructor
      · intro h
        exact absurd h (by decide)
      · intro h
        injection h with h1 h2
        subst h1
        rw [(charCmp_eq_iff a a).mpr rfl] at hab
        cases hab

theorem charsCmp_swap : ∀ x y : List Char, charsCmp y x = (charsCmp x y).swap
  | [], [] => rfl
  | [], _ :: _ => rfl
  | _ :: _, [] => rfl
  | a :: ra, b :: rb => by
    unfold charsCmp
    rw [charCmp_swap a b]
    cases hab : charCmp a b with
    | eq => simpa using charsCmp_swap ra rb
    | lt => rfl
    | gt => rfl

theorem charsCmp_lt_trans :
    ∀ {x y z : List Char}, charsCmp x y = Ordering.lt →
      charsCmp y z = Ordering.lt → charsCmp x z = Ordering.lt
  | [], [], _, h1, _ => by cases h1
  | [], _ :: _, [], _, h2 => by cases h2
  | [], _ :: _, _ :: _, _, _ => rfl
  | _ :: _, [], _, h1, _ => by cases h1
  | _ :: _, _ :: _, [], _, h2 => by cases h2
  | a :: ra, b :: rb, c :: rc, h1, h2 => by
    unfold charsCmp at h1 h2 ⊢
    cases hab : charCmp a b with
    | gt =>
      rw [hab] at h1
      have h1b : Ordering.gt = Ordering.lt := h1
      cases h1b
    | lt =>
      cases hbc : charCmp b c with
      | gt =>
        rw [hbc] at h2
        have h2b : Ordering.gt = Ordering.lt := h2
        cases h2b
      | lt => rw [charCmp_lt_trans hab hbc]
      | eq =>
        have heq : b = c := (charCmp_eq_iff b c).mp hbc
        subst heq
        rw [hab]
    | eq =>
      have heq : a = b := (charCmp_eq_iff a b).mp hab
      subst heq
      rw [hab] at h1
      have h1b : charsCmp ra rb = Ordering.lt := h1
      cases hbc : charCmp a c with
      | gt =>
        rw [hbc] at h2
        have h2b : Ordering.gt = Ordering.lt := h2
        cases h2b
      | lt => rfl
      | eq =>
        rw [hbc] at h2
        have h2b : charsCmp rb rc = Ordering.lt := h2
        exact charsCmp_lt_trans h1b h2b

theorem charsCmp_lt_iff_specStrLt :
    ∀ x y : List Char, charsCmp x y = Ordering.lt ↔ specStrLt x y
  | [], [] => by simp [charsCmp, specStrLt]
  | [], _ :: _ => by simp [charsCmp, specStrLt]
  | _ :: _, [] => by simp [charsCmp, specStrLt]
  | a :: ra, b :: rb => by
    unfold charsCmp specStrLt
    cases hab : charCmp a b with
    | lt =>
      constructor
      · intro _
        exact Or.inl ((charCmp_lt_iff a b).mp hab)
      · intro _
        rfl
    | eq =>
      have heq : a = b := (charCmp_eq_iff a b).mp hab
      subst heq
      constructor
      · intro h
        have h2 : charsCmp ra rb = Ordering.lt := h
        exact Or.inr ⟨rfl, (charsCmp_lt_iff_specStrLt ra rb).mp h2⟩
      · intro h
        rcases h with h | ⟨_, h⟩
        · exact absurd h (lt_irrefl a)
        · show charsCmp ra rb = Ordering.lt
          exact (charsCmp_lt_iff_specStrLt ra rb).mpr h
    | gt =>
      constructor
      · intro h
        have hb : Ordering.gt = Ordering.lt := h
        cases hb
      · intro h
        rcases h with h | ⟨heq, _⟩
        · rw [← charCmp_lt_iff a b] at h
          rw [h] at hab
          cases hab
        · subst heq
          rw [(charCmp_eq_iff a a).mpr rfl] at hab
          cases hab

theorem strCmp_eq_iff (a b : String) : strCmp a b = Ordering.eq ↔ a = b := by
  unfold strCmp
  rw [charsCmp_eq_iff]
  constructor
  · intro h
    obtain ⟨xa⟩ := a
    obtain ⟨xb⟩ := b
    have h2 : xa = xb := h
    rw [h2]
  · intro h
    rw [h]

theorem strCmp_swap (a b : String) : strCmp b a = (strCmp a b).swap :=
  charsCmp_swap a.data b.data

theorem strCmp_lt_trans {a b c : String} (h1 : strCmp a b = Ordering.lt)
    (h2 : strCmp b c = Ordering.lt) : strCmp a c = Ordering.lt :=
  charsCmp_lt_trans h1 h2

/-! ### The signature comparator -/

theorem zipLen_eq_lexCmp :
    ∀ a b : Sig,
      (match zipCmp a b with
       | Ordering.eq => natCmp a.length b.length
       | o => o) = lexCmp a b
  | [], [] => by
    exact (natCmp_eq_iff 0 0).mpr rfl
  | [], (nb, eb) :: rb => by
    exact (natCmp_lt_iff 0 (rb.length + 1)).mpr (Nat.succ_pos _)
  | (na, ea) :: ra, [] => by
    exact (natCmp_gt_iff (ra.length + 1) 0).mpr (Nat.succ_pos _)
  | (na, ea) :: ra, (nb, eb) :: rb => by
    show (match zipCmp ((na, ea) :: ra) ((nb, eb) :: rb) with
          | Ordering.eq => natCmp (ra.length + 1) (rb.length + 1)
          | o => o) = lexCmp ((na, ea) :: ra) ((nb, eb) :: rb)
    unfold zipCmp lexCmp
    cases hs : strCmp na nb with
    | lt => rfl
    | gt => rfl
    | eq =>
      cases hq : qCmp eb.val ea.val with
      | lt => rfl
      | gt => rfl
      | eq =>
        have h1 : natCmp (ra.length + 1) (rb.length + 1) = natCmp ra.length rb.length := by
          unfold natCmp
          split_ifs <;> first | rfl | omega
        rw [h1]
        exact zipLen_eq_lexCmp ra rb

theorem sigCmp_eq (a b : Sig) :
    sigCmp a b =
      if a = [] ∨ b = [] then natCmp b.length a.length else lexCmp a b := by
  unfold sigCmp
  by_cases h : a = [] ∨ b = []
  · have h2 : (a.isEmpty ∨ b.isEmpty) := by
      rcases h with h | h <;> subst h <;> simp [List.isEmpty]
    rw [if_pos h2, if_pos h]
  · have h2 : ¬ (a.isEmpty ∨ b.isEmpty) := by
      intro hc
      apply h
      rcases hc with hc | hc
      · exact Or.inl (List.isEmpty_iff.mp hc)
      · exact Or.inr (List.isEmpty_iff.mp hc)
    rw [if_neg h2, if_neg h]
    exact zipLen_eq_lexCmp a b

theorem lexCmp_eq_iff_sigEqv :
    ∀ a b : Sig, lexCmp a b = Ordering.eq ↔ sigEqv a b
  | [], [] => by simp [lexCmp, sigEqv]
  | [], (_, _) :: _ => by simp [lexCmp, sigEqv]
  | (_, _) :: _, [] => by simp [lexCmp, sigEqv]
  | (na, ea) :: ra, (nb, eb) :: rb => by
    unfold lexCmp sigEqv
    cases hs : strCmp na nb with
    | lt =>
      constructor
      · intro h
        have hb : Ordering.lt = Ordering.eq := h
        cases hb
      · intro h
        rw [(strCmp_eq_iff na nb).mpr h.1] at hs
        cases hs
    | gt =>
      constructor
      · intro h
        have hb : Ordering.gt = Ordering.eq := h
        cases hb
      · intro h
        rw [(strCmp_eq_iff na nb).mpr h.1] at hs
        cases hs
    | eq =>
      have hname : na = nb := (strCmp_eq_iff na nb).mp hs
      cases hq : qCmp eb.val ea.val with
      | lt =>
        constructor
        · intro h
          have hb : Ordering.lt = Ordering.eq := h
          cases hb
        · intro h
          rw [(qCmp_eq_iff eb.val ea.val).mpr (Fl.beq_symm h.2.1)] at hq
          cases hq
      | gt =>
        constructor
        · intro h
          have hb : Ordering.gt = Ordering.eq := h
          cases hb
        · intro h
          rw [(qCmp_eq_iff eb.val ea.val).mpr (Fl.beq_symm h.2.1)] at hq
          cases hq
      | eq =>
        have hexp : Fl.beq ea.val eb.val = true :=
          Fl.beq_symm ((qCmp_eq_iff eb.val ea.val).mp hq)
        rw [lexCmp_eq_iff_sigEqv ra rb]
        constructor
        · intro h
          exact ⟨hname, hexp, h⟩
        · intro h
          exact h.2.2

theorem sigEqv_refl : ∀ a : Sig, sigEqv a a
  | [] => trivial
  | (_, _) :: ra => ⟨rfl, Fl.beq_refl _, sigEqv_refl ra⟩

theorem sigEqv_symm : ∀ {a b : Sig}, sigEqv a b → sigEqv b a
  | [], [], _ => trivial
  | [], _ :: _, h => absurd h not_false
  | _ :: _, [], h => absurd h not_false
  | (_, _) :: _, (_, _) :: _, ⟨h1, h2, h3⟩ =>
    ⟨h1.symm, Fl.beq_symm h2, sigEqv_symm h3⟩

theorem sigEqv_trans : ∀ {a b c : Sig}, sigPosDen b → sigEqv a b → sigEqv b c →
    sigEqv a c
  | [], [], [], _, _, _ => trivial
  | [], [], _ :: _, _, _, h2 => absurd h2 not_false
  | _ :: _, [], _, _, h1, _ => absurd h1 not_false
  | [], _ :: _, _, _, h1, _ => absurd h1 not_false
  | (_, _) :: _, (_, _) :: _, [], _, _, h2 => absurd h2 not_false
  | (na, ea) :: ra, (nb, eb) :: rb, (nc, ec) :: rc, hpos, ⟨h1, h2, h3⟩,
      ⟨h4, h5, h6⟩ => by
    have hb : 0 < eb.val.d := hpos (nb, eb) (List.mem_cons_self _ _)
    have hpos2 : sigPosDen rb := by
      intro p hp
      exact hpos p (List.mem_cons_of_mem _ hp)
    exact ⟨h1.trans h4, Fl.beq_trans hb h2 h5, sigEqv_trans hpos2 h3 h6⟩

theorem lexCmp_swap : ∀ a b : Sig, lexCmp b a = (lexCmp a b).swap
  | [], [] => by rfl
  | [], (_, _) :: _ => by rfl
  | (_, _) :: _, [] => by rfl
  | (na, ea) :: ra, (nb, eb) :: rb => by
    unfold lexCmp
    cases hs : strCmp na nb with
    | lt =>
      rw [strCmp_swap na nb, hs]
      rfl
    | gt =>
      rw [strCmp_swap na nb, hs]
      rfl
    | eq =>
      rw [strCmp_swap na nb, hs]
      cases hq : qCmp eb.val ea.val with
      | lt =>
        rw [qCmp_swap eb.val ea.val, hq]
        rfl
      | gt =>
        rw [qCmp_swap eb.val ea.val, hq]
        rfl
      | eq =>
        rw [qCmp_swap eb.val ea.val, hq]
        exact lexCmp_swap ra rb

theorem qCmp_gt_iff (a b : Fl) :
    qCmp a b = Ordering.gt ↔ Fl.blt a b = false ∧ Fl.beq a b = false := by
  unfold qCmp
  cases h1 : Fl.blt a b <;> cases h2 : Fl.beq a b <;> simp

theorem qCmp_congr {x y z : Fl} (hy : 0 < y.d) (hz : 0 < z.d)
    (h : Fl.beq y z = true) : qCmp x y = qCmp x z := by
  cases hq : qCmp x y with
  | lt =>
    rw [qCmp_lt_iff] at hq
    exact ((qCmp_lt_iff x z).mpr (Fl.blt_of_blt_of_beq hy hz hq h)).symm
  | eq =>
    rw [qCmp_eq_iff] at hq
    exact ((qCmp_eq_iff x z).mpr (Fl.beq_trans hy hq h)).symm
  | gt =>
    rw [qCmp_gt_iff] at hq
    symm
    rw [qCmp_gt_iff]
    constructor
    · rw [Bool.eq_false_iff]
      intro hlt
      have h2 : Fl.blt x y = true := Fl.blt_of_blt_of_beq hz hy hlt (Fl.beq_symm h)
      rw [h2] at hq
      cases hq.1
    · rw [Bool.eq_false_iff]
      intro hbeq
      have h3 : Fl.beq x y = true := Fl.beq_trans hz hbeq (Fl.beq_symm h)
      rw [h3] at hq
      cases hq.2

theorem sigPosDen_cons {n : String} {e : HashableFloat} {r : Sig}
    (h : sigPosDen ((n, e) :: r)) : 0 < e.val.d ∧ sigPosDen r := by
  constructor
  · exact h (n, e) (List.mem_cons_self _ _)
  · intro p hp
    exact h p (List.mem_cons_of_mem _ hp)

theorem lexCmp_lt_trans :
    ∀ a b c : Sig, sigPosDen a → sigPosDen b → sigPosDen c →
      lexCmp a b = Ordering.lt → lexCmp b c = Ordering.lt →
      lexCmp a c = Ordering.lt
  | [], [], _, _, _, _, h1, _ => by
    have hb : Ordering.eq = Ordering.lt := h1
    cases hb
  | [], (_, _) :: _, [], _, _, _, _, h2 => by
    have hb : Ordering.gt = Ordering.lt := h2
    cases hb
  | [], (_, _) :: _, (_, _) :: _, _, _, _, _, _ => by rfl
  | (_, _) :: _, [], _, _, _, _, h1, _ => by
    have hb : Ordering.gt = Ordering.lt := h1
    cases hb
  | (_, _) :: _, (_, _) :: _, [], _, _, _, _, h2 => by
    have hb : Ordering.gt = Ordering.lt := h2
    cases hb
  | (na, ea) :: ra, (nb, eb) :: rb, (nc, ec) :: rc, hpa, hpb, hpc, h1, h2 => by
    obtain ⟨hea, hra⟩ := sigPosDen_cons hpa
    obtain ⟨heb, hrb⟩ := sigPosDen_cons hpb
    obtain ⟨hec, hrc⟩ := sigPosDen_cons hpc
    unfold lexCmp at h1 h2 ⊢
    cases hs1 : strCmp na nb with
    | gt =>
      rw [hs1] at h1
      have hb : Ordering.gt = Ordering.lt := h1
      cases hb
    | lt =>
      rw [hs1] at h1
      cases hs2 : strCmp nb nc with
      | gt =>
        rw [hs2] at h2
        have hb : Ordering.gt = Ordering.lt := h2
        cases hb
      | lt => rw [strCmp_lt_trans hs1 hs2]
      | eq =>
        have heq : nb = nc := (strCmp_eq_iff nb nc).mp hs2
        subst heq
        rw [hs1]
    | eq =>
      have heq : na = nb := (strCmp_eq_iff na nb).mp hs1
      subst heq
      rw [hs1] at h1
      cases hs2 : strCmp na nc with
      | gt =>
        rw [hs2] at h2
        have hb : Ordering.gt = Ordering.lt := h2
        cases hb
      | lt => rfl
      | eq =>
        have heq2 : na = nc := (strCmp_eq_iff na nc).mp hs2
        subst heq2
        rw [hs2] at h2
        cases hq1 : qCmp eb.val ea.val with
        | gt =>
          rw [hq1] at h1
          have hb : Ordering.gt = Ordering.lt := h1
          cases hb
        | lt =>
          rw [hq1] at h1
          cases hq2 : qCmp ec.val eb.val with
          | gt =>
            rw [hq2] at h2
            have hb : Ordering.gt = Ordering.lt := h2
            cases hb
          | lt =>
            have h3 : Fl.blt ec.val ea.val = true :=
              Fl.blt_trans hec heb hea ((qCmp_lt_iff _ _).mp hq2)
                ((qCmp_lt_iff _ _).mp hq1)
            rw [(qCmp_lt_iff ec.val ea.val).mpr h3]
          | eq =>
            have hbeq : Fl.beq ec.val eb.val = true := (qCmp_eq_iff _ _).mp hq2
            have h3 : Fl.blt ec.val ea.val = true :=
              Fl.blt_of_beq_of_blt hec heb hbeq ((qCmp_lt_iff _ _).mp hq1)
            rw [(qCmp_lt_iff ec.val ea.val).mpr h3]
        | eq =>
          rw [hq1] at h1
          have hbeq1 : Fl.beq eb.val ea.val = true := (qCmp_eq_iff _ _).mp hq1
          cases hq2 : qCmp ec.val eb.val with
          | gt =>
            rw [hq2] at h2
            have hb : Ordering.gt = Ordering.lt := h2
            cases hb
          | lt =>
            have h3 : Fl.blt ec.val ea.val = true :=
              Fl.blt_of_blt_of_beq heb hea ((qCmp_lt_iff _ _).mp hq2) hbeq1
            rw [(qCmp_lt_iff ec.val ea.val).mpr h3]
          | eq =>
            rw [hq2] at h2
            have hbeq2 : Fl.beq ec.val eb.val = true := (qCmp_eq_iff _ _).mp hq2
            have h3 : Fl.beq ec.val ea.val = true := Fl.beq_trans heb hbeq2 hbeq1
            have hlt : Fl.blt ec.val ea.val = false := Fl.blt_false_of_beq h3
            have h4 : qCmp ec.val ea.val = Ordering.eq := (qCmp_eq_iff _ _).mpr h3
            rw [h4]
            have h1b : lexCmp ra rb = Ordering.lt := h1
            have h2b : lexCmp rb rc = Ordering.lt := h2
            exact lexCmp_lt_trans ra rb rc hra hrb hrc h1b h2b

theorem lexCmp_congr_right :
    ∀ a b c : Sig, sigPosDen b → sigPosDen c → sigEqv b c →
      lexCmp a b = lexCmp a c
  | _, [], [], _, _, _ => by rfl
  | _, [], (_, _) :: _, _, _, h => absurd h not_false
  | _, (_, _) :: _, [], _, _, h => absurd h not_false
  | [], (_, _) :: _, (_, _) :: _, _, _, _ => by rfl
  | (na, ea) :: ra, (nb, eb) :: rb, (nc, ec) :: rc, hpb, hpc, heqv => by
    obtain ⟨hnames, hexps, htail⟩ := heqv
    subst hnames
    obtain ⟨heb, hrb⟩ := sigPosDen_cons hpb
    obtain ⟨hec, hrc⟩ := sigPosDen_cons hpc
    unfold lexCmp
    cases hs : strCmp na nb with
    | lt => rfl
    | gt => rfl
    | eq =>
      have h1 : qCmp ea.val eb.val = qCmp ea.val ec.val := qCmp_congr heb hec hexps
      have hcong : qCmp eb.val ea.val = qCmp ec.val ea.val := by
        calc qCmp eb.val ea.val = (qCmp ea.val eb.val).swap := qCmp_swap ea.val eb.val
        _ = (qCmp ea.val ec.val).swap := by rw [h1]
        _ = qCmp ec.val ea.val := (qCmp_swap ea.val ec.val).symm
      rw [hcong]
      cases hq : qCmp ec.val ea.val with
      | lt => rfl
      | gt => rfl
      | eq => exact lexCmp_congr_right ra rb rc hrb hrc htail

theorem lexCmp_congr_left :
    ∀ a b c : Sig, sigPosDen a → sigPosDen b → sigEqv a b →
      lexCmp a c = lexCmp b c
  | [], [], _, _, _, _ => by rfl
  | [], (_, _) :: _, _, _, _, h => absurd h not_false
  | (_, _) :: _, [], _, _, _, h => absurd h not_false
  | (_, _) :: _, (_, _) :: _, [], _, _, _ => by rfl
  | (na, ea) :: ra, (nb, eb) :: rb, (nc, ec) :: rc, hpa, hpb, heqv => by
    obtain ⟨hnames, hexps, htail⟩ := heqv
    subst hnames
    obtain ⟨hea, hra⟩ := sigPosDen_cons hpa
    obtain ⟨heb, hrb⟩ := sigPosDen_cons hpb
    unfold lexCmp
    cases hs : strCmp na nc with
    | lt => rfl
    | gt => rfl
    | eq =>
      have hcong : qCmp ec.val ea.val = qCmp ec.val eb.val := qCmp_congr hea heb hexps
      rw [hcong]
      cases hq : qCmp ec.val eb.val with
      | lt => rfl
      | gt => rfl
      | eq => exact lexCmp_congr_left ra rb rc hra hrb htail

theorem sigCmp_swap (a b : Sig) : sigCmp b a = (sigCmp a b).swap := by
  rw [sigCmp_eq, sigCmp_eq]
  by_cases h : a = [] ∨ b = []
  · rw [if_pos h.symm, if_pos h]
    exact natCmp_swap b.length a.length
  · rw [if_neg (fun hc => h hc.symm), if_neg h]
    exact lexCmp_swap a b

theorem sigLe_iff (a b : Sig) : sigLe a b = true ↔ sigCmp a b ≠ Ordering.gt := by
  simp [sigLe]

theorem sigLe_total (a b : Sig) : sigLe a b = true ∨ sigLe b a = true := by
  rw [sigLe_iff, sigLe_iff]
  by_cases h : sigCmp a b = Ordering.gt
  · right
    rw [sigCmp_swap a b, h]
    decide
  · left
    exact h

theorem sigLe_trans {a b c : Sig} (hpa : sigPosDen a) (hpb : sigPosDen b)
    (hpc : sigPosDen c) (h1 : sigLe a b = true) (h2 : sigLe b c = true) :
    sigLe a c = true := by
  rw [sigLe_iff] at h1 h2 ⊢
  rw [sigCmp_eq] at h1 h2 ⊢
  by_cases hb : b = []
  · subst hb
    by_cases hc : c = []
    · subst hc
      exact h1
    · exfalso
      apply h2
      rw [if_pos (Or.inl rfl), natCmp_gt_iff]
      cases c with
      | nil => exact absurd rfl hc
      | cons hd tl => simp
  · by_cases ha : a = []
    · exfalso
      apply h1
      subst ha
      rw [if_pos (Or.inl rfl), natCmp_gt_iff]
      cases b with
      | nil => exact absurd rfl hb
      | cons hd tl => simp
    · by_cases hc : c = []
      · subst hc
        rw [if_pos (Or.inr rfl)]
        intro hgt
        rw [natCmp_gt_iff] at hgt
        simp at hgt
      · rw [if_neg (by simp [ha, hb])] at h1
        rw [if_neg (by simp [hb, hc])] at h2
        rw [if_neg (by simp [ha, hc])]
        cases hab : lexCmp a b with
        | gt => exact absurd hab h1
        | eq =>
          have heqv : sigEqv a b := (lexCmp_eq_iff_sigEqv a b).mp hab
          rw [lexCmp_congr_left a b c hpa hpb heqv]
          exact h2
        | lt =>
          cases hbc : lexCmp b c with
          | gt => exact absurd hbc h2
          | eq =>
            have heqv : sigEqv b c := (lexCmp_eq_iff_sigEqv b c).mp hbc
            rw [← lexCmp_congr_right a b c hpb hpc heqv, hab]
            decide
          | lt =>
            rw [lexCmp_lt_trans a b c hpa hpb hpc hab hbc]
            decide

theorem sigDen1_cons {n : String} {e : HashableFloat} {r : Sig}
    (h : sigDen1 ((n, e) :: r)) : e.val.d = 1 ∧ sigDen1 r := by
  constructor
  · exact h (n, e) (List.mem_cons_self _ _)
  · intro p hp
    exact h p (List.mem_cons_of_mem _ hp)

theorem sigPosDen_of_den1 {s : Sig} (h : sigDen1 s) : sigPosDen s := by
  intro p hp
  rw [h p hp]
  omega

theorem sigEqv_eq_of_den1 : ∀ {a b : Sig}, sigDen1 a → sigDen1 b → sigEqv a b →
    a = b
  | [], [], _, _, _ => rfl
  | [], (_, _) :: _, _, _, h => absurd h not_false
  | (_, _) :: _, [], _, _, h => absurd h not_false
  | (na, ea) :: ra, (nb, eb) :: rb, h1, h2, ⟨hn, he, ht⟩ => by
    obtain ⟨hea, hra⟩ := sigDen1_cons h1
    obtain ⟨heb, hrb⟩ := sigDen1_cons h2
    have hval : ea.val = eb.val := Fl.eq_of_beq_den1 hea heb he
    have hexp : ea = eb := by
      obtain ⟨v1⟩ := ea
      obtain ⟨v2⟩ := eb
      have hv : v1 = v2 := hval
      rw [hv]
    have htl : ra = rb := sigEqv_eq_of_den1 hra hrb ht
    rw [hn, hexp, htl]

theorem sigLe_antisymm_den1 {a b : Sig} (h1 : sigDen1 a) (h2 : sigDen1 b)
    (hab : sigLe a b = true) (hba : sigLe b a = true) : a = b := by
  rw [sigLe_iff] at hab hba
  have hswap := sigCmp_swap a b
  have heq : sigCmp a b = Ordering.eq := by
    cases h : sigCmp a b with
    | eq => rfl
    | gt => exact absurd h hab
    | lt =>
      rw [h] at hswap
      exact absurd hswap hba
  rw [sigCmp_eq] at heq
  by_cases hcond : a = [] ∨ b = []
  · rw [if_pos hcond, natCmp_eq_iff] at heq
    rcases hcond with hc | hc
    · subst hc
      have hb0 : b.length = 0 := by simpa using heq
      rw [List.length_eq_zero.mp hb0]
    · subst hc
      have ha0 : a.length = 0 := by simpa using heq.symm
      rw [List.length_eq_zero.mp ha0]
  · rw [if_neg hcond] at heq
    exact sigEqv_eq_of_den1 h1 h2 ((lexCmp_eq_iff_sigEqv a b).mp heq)

theorem lexCmp_lt_implies_specLexLe :
    ∀ a b : Sig, lexCmp a b = Ordering.lt → specLexLe a b
  | [], _, _ => trivial
  | (_, _) :: _, [], h => by
    have hb : Ordering.gt = Ordering.lt := h
    cases hb
  | (na, ea) :: ra, (nb, eb) :: rb, h => by
    unfold lexCmp at h
    unfold specLexLe
    cases hs : strCmp na nb with
    | lt =>
      left
      exact (charsCmp_lt_iff_specStrLt na.data nb.data).mp hs
    | gt =>
      rw [hs] at h
      have hb : Ordering.gt = Ordering.lt := h
      cases hb
    | eq =>
      rw [hs] at h
      have hn : na = nb := (strCmp_eq_iff na nb).mp hs
      right
      refine ⟨hn, ?_⟩
      cases hq : qCmp eb.val ea.val with
      | lt =>
        left
        exact (Fl.blt_iff eb.val ea.val).mp ((qCmp_lt_iff _ _).mp hq)
      | gt =>
        rw [hq] at h
        have hb : Ordering.gt = Ordering.lt := h
        cases hb
      | eq =>
        right
        constructor
        · have hbeq := (qCmp_eq_iff _ _).mp hq
          rw [Fl.beq_iff] at hbeq
          omega
        · rw [hq] at h
          exact lexCmp_lt_implies_specLexLe ra rb h

theorem sigEqv_implies_specLexLe : ∀ a b : Sig, sigEqv a b → specLexLe a b
  | [], _, _ => trivial
  | (_, _) :: _, [], h => absurd h not_false
  | (na, ea) :: ra, (nb, eb) :: rb, ⟨hn, he, ht⟩ => by
    unfold specLexLe
    right
    refine ⟨hn, Or.inr ⟨?_, sigEqv_implies_specLexLe ra rb ht⟩⟩
    rw [Fl.beq_iff] at he
    exact he

theorem sigLe_implies_sigSpecLe {a b : Sig} (hle : sigLe a b = true) :
    sigSpecLe a b := by
  rw [sigLe_iff, sigCmp_eq] at hle
  unfold sigSpecLe
  by_cases ha : a = []
  · rw [if_pos ha]
    subst ha
    rw [if_pos (Or.inl rfl)] at hle
    cases b with
    | nil => rfl
    | cons hd tl =>
      exfalso
      apply hle
      rw [natCmp_gt_iff]
      simp
  · rw [if_neg ha]
    by_cases hb : b = []
    · exact Or.inl hb
    · right
      rw [if_neg (by simp [ha, hb])] at hle
      cases h : lexCmp a b with
      | gt => exact absurd h hle
      | lt => exact lexCmp_lt_implies_specLexLe a b h
      | eq => exact sigEqv_implies_specLexLe a b ((lexCmp_eq_iff_sigEqv a b).mp h)

/-! ### The stable sort -/

theorem insertLe_perm {α : Type} (le : α → α → Bool) (x : α) :
    ∀ l : List α, List.Perm (insertLe le x l) (x :: l)
  | [] => List.Perm.refl _
  | y :: ys => by
    unfold insertLe
    split_ifs
    · exact List.Perm.refl _
    · exact ((insertLe_perm le x ys).cons y).trans (List.Perm.swap x y ys)

theorem insSort_perm {α : Type} (le : α → α → Bool) :
    ∀ l : List α, List.Perm (insSort le l) l
  | [] => List.Perm.refl _
  | x :: xs =>
    (insertLe_perm le x (insSort le xs)).trans ((insSort_perm le xs).cons x)

theorem insertLe_pairwise {α : Type} (le : α → α → Bool) (P : α → Prop)
    (htot : ∀ a b, P a → P b → le a b = true ∨ le b a = true)
    (htrans : ∀ a b c, P a → P b → P c →
      le a b = true → le b c = true → le a c = true)
    (x : α) (hx : P x) :
    ∀ l : List α, (∀ y ∈ l, P y) →
      List.Pairwise (fun a b => le a b = true) l →
      List.Pairwise (fun a b => le a b = true) (insertLe le x l)
  | [], _, _ => by simp [insertLe]
  | y :: ys, hP, hp => by
    unfold insertLe
    split_ifs with hxy
    · refine List.Pairwise.cons ?_ hp
      intro z hz
      rcases List.mem_cons.mp hz with hz | hz
      · rw [hz]
        exact hxy
      · have hyz := (List.pairwise_cons.mp hp).1 z hz
        exact htrans x y z hx (hP y (List.mem_cons_self _ _))
          (hP z (List.mem_cons_of_mem _ hz)) hxy hyz
    · have hyx : le y x = true := by
        rcases htot x y hx (hP y (List.mem_cons_self _ _)) with h | h
        · exact absurd h hxy
        · exact h
      obtain ⟨h1, h2⟩ := List.pairwise_cons.mp hp
      refine List.Pairwise.cons ?_
        (insertLe_pairwise le P htot htrans x hx ys
          (fun z hz => hP z (List.mem_cons_of_mem _ hz)) h2)
      intro z hz
      have hz2 := (insertLe_perm le x ys).mem_iff.mp hz
      rcases List.mem_cons.mp hz2 with hz3 | hz3
      · rw [hz3]
        exact hyx
      · exact h1 z hz3

theorem insSort_pairwise {α : Type} (le : α → α → Bool) (P : α → Prop)
    (htot : ∀ a b, P a → P b → le a b = true ∨ le b a = true)
    (htrans : ∀ a b c, P a → P b → P c →
      le a b = true → le b c = true → le a c = true) :
    ∀ l : List α, (∀ y ∈ l, P y) →
      List.Pairwise (fun a b => le a b = true) (insSort le l)
  | [], _ => List.Pairwise.nil
  | x :: xs, hP => by
    unfold insSort
    exact insertLe_pairwise le P htot htrans x (hP x (List.mem_cons_self _ _))
      (insSort le xs)
      (fun y hy =>
        hP y (List.mem_cons_of_mem _ ((insSort_perm le xs).mem_iff.mp hy)))
      (insSort_pairwise le P htot htrans xs
        (fun y hy => hP y (List.mem_cons_of_mem _ hy)))

set_option maxRecDepth 4000 in
/-- Claim C8: `get_sorted_term_sigs` returns all of the map's signatures,
pairwise ordered as the claim describes — empty signature last, non-empty
signatures by lexicographic (name ascending, exponent descending) comparison
with the shorter signature first on ties — and the spec's example together
with its rotations all render `"2x^3y + 2xy^3 + 2xy^2"`.  The hypothesis
states that the stored exponents are actual `f64` values (positive
denominators in the exact-fraction model), which holds for every value the
program can construct. -/
theorem c8_sorted_term_sigs (pe : ParsedExpression)
    (hpd : ∀ kv ∈ pe.terms, sigPosDen kv.1) :
    (∀ k : Sig, k ∈ getSortedTermSigs pe ↔
      k ∈ pe.terms.map (fun kv => kv.1)) ∧
    List.Pairwise sigSpecLe (getSortedTermSigs pe) ∧
    run "2xy^3 + 2xy^2 + 2yx^3" = some (Except.ok "2x^3y + 2xy^3 + 2xy^2") ∧
    run "2xy^2 + 2yx^3 + 2xy^3" = some (Except.ok "2x^3y + 2xy^3 + 2xy^2") ∧
    run "2yx^3 + 2xy^3 + 2xy^2" = some (Except.ok "2x^3y + 2xy^3 + 2xy^2") := by
  refine ⟨?_, ?_, by rfl, by rfl, by rfl⟩
  · intro k
    exact (insSort_perm sigLe _).mem_iff
  · have hPafter : ∀ k ∈ pe.terms.map (fun kv => kv.1), sigPosDen k := by
      intro k hk
      rw [List.mem_map] at hk
      obtain ⟨kv, hkv, rfl⟩ := hk
      exact hpd kv hkv
    have hsorted := insSort_pairwise sigLe sigPosDen
      (fun a b _ _ => sigLe_total a b)
      (fun a b c hpa hpb hpc h1 h2 => sigLe_trans hpa hpb hpc h1 h2)
      (pe.terms.map (fun kv => kv.1)) hPafter
    exact hsorted.imp (fun h => sigLe_implies_sigSpecLe h)

theorem c8_sorted_term_sigs_witness :
    (∀ k : Sig, k ∈ getSortedTermSigs ParsedExpression.new ↔
      k ∈ ParsedExpression.new.terms.map (fun kv => kv.1)) ∧
    List.Pairwise sigSpecLe (getSortedTermSigs ParsedExpression.new) :=
  ⟨(c8_sorted_term_sigs ParsedExpression.new (by intro kv hkv; cases hkv)).1,
   (c8_sorted_term_sigs ParsedExpression.new (by intro kv hkv; cases hkv)).2.1⟩

/-! ### The overflow guard -/

theorem raccFrom_cons (acc d : Fl) (ds : List Fl) :
    raccFrom acc (d :: ds) = raccFrom (roundStep acc d) ds := rfl

theorem accFrom_cons (acc d : Fl) (ds : List Fl) :
    accFrom acc (d :: ds) = accFrom (acc * 10 + d) ds := rfl

theorem exceedsExact_iff :
    ∀ (ds : List Fl) (acc : Fl),
      exceedsExact ds acc = true ↔
      ∃ k, k < ds.length ∧ Fl.blt (FMAX / 10) (accFrom acc (ds.take k)) = true
  | [], acc => by
    constructor
    · intro h
      exact Bool.noConfusion h
    · intro ⟨k, hk, _⟩
      simp at hk
  | d :: rest, acc => by
    unfold exceedsExact
    split_ifs with hcond
    · constructor
      · intro _
        exact ⟨0, by simp, by simpa [accFrom] using hcond⟩
      · intro _
        rfl
    · rw [exceedsExact_iff rest (acc * 10 + d)]
      constructor
      · intro ⟨k, hk, hb⟩
        refine ⟨k + 1, by simp only [List.length_cons]; omega, ?_⟩
        rw [List.take_succ_cons, accFrom_cons]
        exact hb
      · intro ⟨k, hk, hb⟩
        cases k with
        | zero =>
          exfalso
          apply hcond
          simpa [accFrom] using hb
        | succ j =>
          refine ⟨j, by simp only [List.length_cons] at hk; omega, ?_⟩
          rw [List.take_succ_cons, accFrom_cons] at hb
          exact hb

theorem parseDigits_error_iff_ble :
    ∀ (ts : List Token) (acc : Fl),
      (∃ e, parseDigits ts acc = Except.error e) ↔
      ∃ k, k < (digitRun ts).length ∧
        Fl.ble TFDIV (raccFrom acc ((digitRun ts).take k)) = true
  | [], acc => by
    constructor
    · intro ⟨e, h⟩
      exact Except.noConfusion h
    · intro ⟨k, hk, _⟩
      simp [digitRun] at hk
  | Token.identifier s :: rest, acc => by
    constructor
    · intro ⟨e, h⟩
      exact Except.noConfusion h
    · intro ⟨k, hk, _⟩
      simp [digitRun] at hk
  | Token.symbol c :: rest, acc => by
    constructor
    · intro ⟨e, h⟩
      exact Except.noConfusion h
    · intro ⟨k, hk, _⟩
      simp [digitRun] at hk
  | Token.number n :: rest, acc => by
    unfold parseDigits
    split_ifs with hcond
    · constructor
      · intro _
        refine ⟨0, ?_, ?_⟩
        · simp [digitRun]
        · simpa [raccFrom] using hcond
      · intro _
        exact ⟨InterpreterError.unsupportedNumber acc n, rfl⟩
    · rw [parseDigits_error_iff_ble rest (roundStep acc n)]
      constructor
      · intro ⟨k, hk, hb⟩
        refine ⟨k + 1, ?_, ?_⟩
        · simp [digitRun]
          omega
        · show Fl.ble TFDIV
            (raccFrom acc ((digitRun (Token.number n :: rest)).take (k + 1))) = true
          rw [show digitRun (Token.number n :: rest) = n :: digitRun rest from rfl]
          rw [List.take_succ_cons, raccFrom_cons]
          exact hb
      · intro ⟨k, hk, hb⟩
        cases k with
        | zero =>
          exfalso
          apply hcond
          simpa [raccFrom] using hb
        | succ j =>
          refine ⟨j, ?_, ?_⟩
          · have hk2 : j + 1 < (digitRun (Token.number n :: rest)).length := hk
            rw [show digitRun (Token.number n :: rest) = n :: digitRun rest from rfl]
              at hk2
            simpa using hk2
          · have hb2 : Fl.ble TFDIV
                (raccFrom acc ((n :: digitRun rest).take (j + 1))) = true := hb
            rw [List.take_succ_cons, raccFrom_cons] at hb2
            exact hb2

set_option maxRecDepth 4000 in
/-- Certificate that the literal `TFDIV` is the `f64` value of
`f64::MAX / 10.0`: it is an integer in the binade `[2^1020, 2^1021)`
(where consecutive doubles are `2^968` apart), it lies on that grid, it is
the strictly nearest grid point to the exact quotient `FMAX / 10` (within
half a spacing, so no tie arises), and it is strictly greater than the
exact quotient and strictly below `FMAX`. -/
theorem TFDIV_is_rounded_quotient :
    TFDIV.d = 1 ∧
    pw2 1020 ≤ TFDIV.n.natAbs ∧ TFDIV.n.natAbs < pw2 1021 ∧
    TFDIV.n.natAbs % pw2 968 = 0 ∧
    (10 * TFDIV.n - FMAX.n).natAbs * 2 < pw2 968 * 10 ∧
    Fl.blt (FMAX / 10) TFDIV = true ∧ Fl.blt TFDIV FMAX = true := by
  refine ⟨rfl, by decide, by decide, by decide, by decide, by decide, by decide⟩

theorem getSign_mem :
    ∀ (ts : List Token) (sign : Bool) (t : Token), t ∈ (getSign ts sign).2 → t ∈ ts
  | [], _, _, h => h
  | Token.number n :: rest, _, _, h => h
  | Token.identifier s :: rest, _, _, h => h
  | Token.symbol c :: rest, sign, t, h => by
    simp only [getSign] at h
    split_ifs at h with hm hp
    · exact List.mem_cons_of_mem _ (getSign_mem rest (!sign) t h)
    · exact List.mem_cons_of_mem _ (getSign_mem rest sign t h)
    · exact h

theorem parseDigits_error_shape :
    ∀ (ts : List Token) (acc : Fl) (e : InterpreterError),
      parseDigits ts acc = Except.error e →
      ∃ a n, e = InterpreterError.unsupportedNumber a n
  | [], _, _, h => Except.noConfusion h
  | Token.identifier s :: rest, _, _, h => Except.noConfusion h
  | Token.symbol c :: rest, _, _, h => Except.noConfusion h
  | Token.number n :: rest, acc, e, h => by
    unfold parseDigits at h
    split_ifs at h with hc
    · exact ⟨acc, n, (Except.error.inj h).symm⟩
    · exact parseDigits_error_shape rest (roundStep acc n) e h

theorem parseConstant_error_shape (ts : List Token) (e : InterpreterError)
    (h : parseConstant ts = Except.error e) :
    ∃ a n, e = InterpreterError.unsupportedNumber a n := by
  cases hp : parseDigits (getSign ts true).2 0 with
  | error e2 =>
    simp only [parseConstant, hp] at h
    injection h with h2
    subst h2
    exact parseDigits_error_shape _ 0 e2 hp
  | ok p =>
    obtain ⟨a, r⟩ := p
    simp [parseConstant, hp] at h

theorem parseOptionalExponent_error_shape :
    ∀ (ts : List Token) (e : InterpreterError),
      parseOptionalExponent ts = Except.error e →
      ∃ a n, e = InterpreterError.unsupportedNumber a n := by
  intro ts e h
  unfold parseOptionalExponent at h
  split at h
  · exact parseConstant_error_shape _ e h
  · exact Except.noConfusion h

theorem parseOptionalVariables_error_shape :
    ∀ (ts : List Token) (e : InterpreterError),
      parseOptionalVariables ts = Except.error e →
      ∃ a n, e = InterpreterError.unsupportedNumber a n
  | [], _, h => Except.noConfusion h
  | Token.number n :: rest, _, h => Except.noConfusion h
  | Token.symbol c :: rest, _, h => Except.noConfusion h
  | Token.identifier s :: rest, e, h => by
    simp only [parseOptionalVariables] at h
    split_ifs at h
    · cases hx : parseOptionalExponent rest with
      | error e2 =>
        rw [hx] at h
        injection h with h2
        subst h2
        exact parseOptionalExponent_error_shape rest e2 hx
      | ok p =>
        obtain ⟨en, ts2⟩ := p
        rw [hx] at h
        exact Except.noConfusion h
    · cases hx : parseOptionalExponent rest with
      | error e2 =>
        rw [hx] at h
        injection h with h2
        subst h2
        exact parseOptionalExponent_error_shape rest e2 hx
      | ok p =>
        obtain ⟨en, ts2⟩ := p
        rw [hx] at h
        exact Except.noConfusion h

theorem parseTerm_error_shape (ts : List Token) (e : InterpreterError)
    (h : parseTerm ts = Except.error e) :
    ∃ a n, e = InterpreterError.unsupportedNumber a n := by
  cases hc : parseConstant ts with
  | error e2 =>
    simp only [parseTerm, hc] at h
    injection h with h2
    subst h2
    exact parseConstant_error_shape ts e2 hc
  | ok p =>
    obtain ⟨coefficient, ts1⟩ := p
    cases hv : parseOptionalVariables ts1 with
    | error e2 =>
      simp only [parseTerm, hc, hv] at h
      injection h with h2
      subst h2
      exact parseOptionalVariables_error_shape ts1 e2 hv
    | ok q =>
      obtain ⟨vs, ts2⟩ := q
      simp only [parseTerm, hc, hv] at h
      split_ifs at h

theorem parseExpressionFuel_error_shape :
    ∀ (fuel : ℕ) (ts : List Token) (e : InterpreterError),
      parseExpressionFuel fuel ts = some (Except.error e) →
      ∃ a n, e = InterpreterError.unsupportedNumber a n
  | _, [], _, h => by simp [parseExpressionFuel] at h
  | 0, t :: ts, _, h => by simp [parseExpressionFuel] at h
  | fuel + 1, t :: ts, e, h => by
    cases hc : parseTerm (t :: ts) with
    | error e2 =>
      simp only [parseExpressionFuel, hc, Option.some.injEq, Except.error.injEq] at h
      subst h
      exact parseTerm_error_shape (t :: ts) e2 hc
    | ok p =>
      obtain ⟨term, rest⟩ := p
      cases hr : parseExpressionFuel fuel rest with
      | none => simp [parseExpressionFuel, hc, hr] at h
      | some r =>
        cases r with
        | error e2 =>
          simp only [parseExpressionFuel, hc, hr, Option.some.injEq,
            Except.error.injEq] at h
          subst h
          exact parseExpressionFuel_error_shape fuel rest e2 hr
        | ok terms => simp [parseExpressionFuel, hc, hr] at h

theorem parse_error_shape (ts : List Token) (e : InterpreterError)
    (h : parse ts = some (Except.error e)) :
    ∃ a n, e = InterpreterError.unsupportedNumber a n := by
  cases hr : parseExpressionFuel (ts.length + 1) ts with
  | none => simp [parse, hr] at h
  | some r =>
    cases r with
    | error e2 =>
      simp [parse, hr, Except.map] at h
      subst h
      exact parseExpressionFuel_error_shape _ ts e2 hr
    | ok terms => simp [parse, hr, Except.map] at h

theorem parseConstant_error_iff (ts : List Token) :
    (∃ e, parseConstant ts = Except.error e) ↔
      ∃ k, k < (digitRun (getSign ts true).2).length ∧
        Fl.ble TFDIV (raccFrom 0 ((digitRun (getSign ts true).2).take k)) = true := by
  have hstep : (∃ e, parseConstant ts = Except.error e) ↔
      ∃ e, parseDigits (getSign ts true).2 0 = Except.error e := by
    constructor
    · intro ⟨e, h⟩
      cases hp : parseDigits (getSign ts true).2 0 with
      | error e2 => exact ⟨e2, rfl⟩
      | ok p =>
        obtain ⟨a, r⟩ := p
        simp [parseConstant, hp] at h
    · intro ⟨e, h⟩
      exact ⟨e, by simp [parseConstant, h]⟩
  rw [hstep, parseDigits_error_iff_ble]

set_option maxRecDepth 8000 in
/-- Claim C7 (amended): `parse_constant` fails exactly when, before
consuming some next digit token, the *rounded* `f64` accumulator has
reached the `f64` constant `f64::MAX / 10.0` (`TFDIV`, the source's `>=`
guard); every parse failure carries the typed "Unsupported number" error
and nothing else; a failure aborts the whole pipeline with that same
error; and a numeral of 309 nines (one digit longer than the 308 nines
that fit below the guard) fails while 308 nines parse and render
successfully.  The claimed characterization through the *exact* accumulated
value exceeding `FMAX / 10` is refuted by the C7 counterexample below. -/
theorem c7_overflow_guard (ts : List Token) (s : String) :
    ((∃ e, parseConstant ts = Except.error e) ↔
      ∃ k, k < (digitRun (getSign ts true).2).length ∧
        Fl.ble TFDIV (raccFrom 0 ((digitRun (getSign ts true).2).take k)) = true) ∧
    (∀ e, parse ts = some (Except.error e) →
      ∃ a n, e = InterpreterError.unsupportedNumber a n) ∧
    (∀ e, parse (lex s) = some (Except.error e) → run s = some (Except.error e)) ∧
    isRunErr (run (nines 309)) = true ∧
    isRunOk (run (nines 308)) = true := by
  refine ⟨parseConstant_error_iff ts, ?_, ?_, by rfl, by rfl⟩
  · intro e h
    exact parse_error_shape ts e h
  · intro e h
    simp [run, h]

set_option maxRecDepth 8000 in
/-- Claim C7 counterexample: the claim (and the spec) tie the failure to
the *accumulated value* exceeding `float_max / 10`, but the source's
accumulator rounds after every digit.  On the 309-digit numeral `c7num`
the exact value of the first 308 digits already exceeds `FMAX / 10`
strictly, yet the rounded accumulator never reaches the guard constant and
the whole pipeline parses and renders the numeral successfully — so
"fails iff the accumulated value would exceed `float_max / 10`" is false
of the program. -/
theorem c7_counterexample :
    (∃ k, k < (digitRun (lex c7num)).length ∧
      Fl.blt (FMAX / 10) (accFrom 0 ((digitRun (lex c7num)).take k)) = true) ∧
    isRunOk (run c7num) = true := by
  refine ⟨(exceedsExact_iff (digitRun (lex c7num)) 0).mp (by rfl), by rfl⟩

/-! ### Order independence: exactness of the canonical map's arithmetic -/

theorem Fl.add_com (a b : Fl) : a + b = b + a := by
  show Fl.add a b = Fl.add b a
  unfold Fl.add
  simp only [Fl.mk.injEq]
  constructor
  · ring
  · ring

theorem Fl.add_asso (a b c : Fl) : a + b + c = a + (b + c) := by
  show Fl.add (Fl.add a b) c = Fl.add a (Fl.add b c)
  unfold Fl.add
  simp only [Fl.mk.injEq]
  constructor
  · push_cast
    ring
  · ring

theorem rustRound_int (m : ℤ) : rustRound ⟨m, 1⟩ = m := by
  have h2 : ∀ k : ℤ, Int.fdiv (k * 2 + 1 * 1) (((1 * 2 : ℕ) : ℤ)) = k := by
    intro k
    have he : (k * 2 + 1 * 1 : ℤ) = 1 + k * 2 := by ring
    have hd : (((1 * 2 : ℕ) : ℤ)) = 2 := by norm_num
    rw [he, hd, Int.fdiv_eq_ediv _ (by norm_num),
      Int.add_mul_ediv_right 1 k (by norm_num : (2 : ℤ) ≠ 0)]
    norm_num
  unfold rustRound
  split_ifs with h
  · exact h2 m
  · have h3 : Fl.floor (-(⟨m, 1⟩ : Fl) + ⟨1, 2⟩) = -m := h2 (-m)
    rw [h3, neg_neg]

theorem normalized_int (n : ℤ) :
    normalized ⟨⟨n, 1⟩⟩ = ⟨n * 4503599627370496, 4503599627370496⟩ := by
  unfold normalized
  dsimp only
  have hdiv : (⟨n, 1⟩ : Fl) / EPS = ⟨n * 4503599627370496, 1⟩ := by
    show Fl.div ⟨n, 1⟩ EPS = _
    unfold Fl.div
    rw [if_pos (by decide : (0 : ℤ) ≤ EPS.n)]
    rfl
  rw [hdiv, rustRound_int]
  show (⟨n * 4503599627370496 * 1, 1 * 4503599627370496⟩ : Fl) =
    (⟨n * 4503599627370496, 4503599627370496⟩ : Fl)
  simp only [Fl.mk.injEq]
  constructor
  · ring
  · norm_num

theorem hashHF_int (n : ℤ) :
    hashHF ⟨⟨n, 1⟩⟩ =
      if n = 0 then 0 else ⟨n * 4503599627370496, 4503599627370496⟩ := by
  unfold hashHF
  rw [normalized_int]
  have hbeq : Fl.beq ⟨n * 4503599627370496, 4503599627370496⟩ 0 = true ↔ n = 0 := by
    rw [Fl.beq_iff]
    show n * 4503599627370496 * ((1 : ℕ) : ℤ) =
      0 * ((4503599627370496 : ℕ) : ℤ) ↔ n = 0
    push_cast
    constructor <;> intro h <;> omega
  by_cases hn : n = 0
  · rw [if_pos (hbeq.mpr hn), if_pos hn]
  · rw [if_neg ?_, if_neg hn]
    intro hc
    exact hn (hbeq.mp hc)

theorem hashHF_beq_iff_of_den1 {a b : HashableFloat}
    (ha : a.val.d = 1) (hb : b.val.d = 1) :
    Fl.beq (hashHF a) (hashHF b) = true ↔ a.val.n = b.val.n := by
  obtain ⟨⟨na, da⟩⟩ := a
  obtain ⟨⟨nb, db⟩⟩ := b
  have ha2 : da = 1 := ha
  have hb2 : db = 1 := hb
  subst ha2
  subst hb2
  show Fl.beq (hashHF ⟨⟨na, 1⟩⟩) (hashHF ⟨⟨nb, 1⟩⟩) = true ↔ na = nb
  rw [hashHF_int na, hashHF_int nb]
  by_cases h1 : na = 0 <;> by_cases h2 : nb = 0
  · simp [h1, h2, Fl.beq_refl]
  · rw [if_pos h1, if_neg h2, Fl.beq_iff]
    show (0 : ℤ) * ((4503599627370496 : ℕ) : ℤ) =
      nb * 4503599627370496 * ((1 : ℕ) : ℤ) ↔ na = nb
    push_cast
    constructor
    · intro h
      exact absurd (by omega : nb = 0) h2
    · intro h
      exact absurd (by omega : nb = 0) h2
  · rw [if_neg h1, if_pos h2, Fl.beq_iff]
    show na * 4503599627370496 * ((1 : ℕ) : ℤ) =
      (0 : ℤ) * ((4503599627370496 : ℕ) : ℤ) ↔ na = nb
    push_cast
    constructor
    · intro h
      exact absurd (by omega : na = 0) h1
    · intro h
      exact absurd (by omega : na = 0) h1
  · rw [if_neg h1, if_neg h2, Fl.beq_iff]
    show na * 4503599627370496 * ((4503599627370496 : ℕ) : ℤ) =
      nb * 4503599627370496 * ((4503599627370496 : ℕ) : ℤ) ↔ na = nb
    push_cast
    constructor <;> intro h <;> omega

theorem approxEq_refl (a : HashableFloat) : approxEq a a = true := by
  unfold approxEq
  rw [if_pos (Fl.beq_refl a.val)]

theorem mem_zip_self {α : Type} : ∀ (l : List α) (p : α × α),
    p ∈ l.zip l → p.1 = p.2
  | [], p, h => by simp at h
  | x :: xs, p, h => by
    rw [List.zip_cons_cons] at h
    rcases List.mem_cons.mp h with h | h
    · rw [h]
    · exact mem_zip_self xs p h

theorem sigKeyEqb_refl (a : Sig) : sigKeyEqb a a = true := by
  unfold sigKeyEqb sigEqb sigHashEqb
  simp only [Bool.and_eq_true, List.all_eq_true, decide_eq_true_eq]
  refine ⟨⟨by simp, ?_⟩, by simp, ?_⟩
  · intro p hp
    have hps := mem_zip_self a p hp
    rw [hps]
    simp [approxEq_refl]
  · intro p hp
    have hps := mem_zip_self a p hp
    rw [hps]
    simp [Fl.beq_refl]

theorem sigKeyEqb_eq_of_den1 : ∀ {a b : Sig}, sigDen1 a → sigDen1 b →
    sigKeyEqb a b = true → a = b
  | [], [], _, _, _ => rfl
  | [], (nb, eb) :: rb, _, _, h => by
    simp [sigKeyEqb, sigEqb] at h
  | (na, ea) :: ra, [], _, _, h => by
    simp [sigKeyEqb, sigEqb] at h
  | (na, ea) :: ra, (nb, eb) :: rb, h1, h2, h => by
    unfold sigKeyEqb sigEqb sigHashEqb at h
    simp only [List.zip_cons_cons, List.all_cons, Bool.and_eq_true,
      decide_eq_true_eq, List.length_cons] at h
    obtain ⟨⟨hlen, ⟨hn1, _⟩, hall1⟩, _, ⟨_, hhb⟩, hall2⟩ := h
    obtain ⟨hea, hra⟩ := sigDen1_cons h1
    obtain ⟨heb, hrb⟩ := sigDen1_cons h2
    have hval : ea.val.n = eb.val.n := (hashHF_beq_iff_of_den1 hea heb).mp hhb
    have hexp : ea = eb := by
      obtain ⟨⟨n1, d1⟩⟩ := ea
      obtain ⟨⟨n2, d2⟩⟩ := eb
      have hd1 : d1 = 1 := hea
      have hd2 : d2 = 1 := heb
      have hn : n1 = n2 := hval
      rw [hd1, hd2, hn]
    have ht : sigKeyEqb ra rb = true := by
      unfold sigKeyEqb sigEqb sigHashEqb
      simp only [Bool.and_eq_true, decide_eq_true_eq]
      exact ⟨⟨by omega, hall1⟩, by omega, hall2⟩
    rw [hn1, hexp, sigKeyEqb_eq_of_den1 hra hrb ht]

/-! ### Order independence: the canonical map under permutation -/

theorem clStepExact_eq (pe : ParsedExpression) (t : ASTNode) :
    clStepExact pe t = addTermExact pe (termSig t) (termCoeff t) := by
  cases t with
  | term c vs =>
    by_cases h : vs.length = 0
    · simp [clStepExact, termSig, termCoeff, h]
    · simp [clStepExact, termSig, termCoeff, h]
  | number n => rfl
  | operation o a b => rfl
  | var a b => rfl
  | function a b => rfl
  | equation a b => rfl
  | expression a => rfl

theorem addTermExact_terms (pe : ParsedExpression) (k : Sig) (c : Fl) :
    (addTermExact pe k c).terms =
      if Fl.beq c 0 = false then updateEntryExact pe.terms k c else pe.terms := by
  unfold addTermExact
  split_ifs with h1 h2
  · rfl
  · have hk0 : k = [] := List.length_eq_zero.mp (by omega)
    subst hk0
    rfl
  · rfl

theorem updateEntryExact_key_mem :
    ∀ (l : List (Sig × Fl)) (k : Sig) (c : Fl) (q : Sig × Fl),
      q ∈ updateEntryExact l k c → q.1 = k ∨ ∃ p ∈ l, q.1 = p.1
  | [], k, c, q, h => by
    rcases List.mem_cons.mp h with h | h
    · left
      rw [h]
    · exact absurd h (List.not_mem_nil q)
  | (k', c') :: rest, k, c, q, h => by
    unfold updateEntryExact at h
    split_ifs at h with hc
    · rcases List.mem_cons.mp h with h | h
      · right
        exact ⟨(k', c'), List.mem_cons_self _ _, by rw [h]⟩
      · right
        exact ⟨q, List.mem_cons_of_mem _ h, rfl⟩
    · rcases List.mem_cons.mp h with h | h
      · right
        exact ⟨(k', c'), List.mem_cons_self _ _, by rw [h]⟩
      · rcases updateEntryExact_key_mem rest k c q h with h2 | ⟨p, hp, hq⟩
        · left
          exact h2
        · right
          exact ⟨p, List.mem_cons_of_mem _ hp, hq⟩

theorem updateEntryExact_keysDen1 (l : List (Sig × Fl)) (k : Sig) (c : Fl)
    (hl : keysDen1 l) (hk : sigDen1 k) : keysDen1 (updateEntryExact l k c) := by
  intro q hq
  rcases updateEntryExact_key_mem l k c q hq with h | ⟨p, hp, hq2⟩
  · rw [h]
    exact hk
  · rw [hq2]
    exact hl p hp

theorem updateEntryExact_keysNodup :
    ∀ (l : List (Sig × Fl)) (k : Sig) (c : Fl), keysNodup l → keysDen1 l →
      sigDen1 k → keysNodup (updateEntryExact l k c)
  | [], k, c, _, _, _ => List.pairwise_singleton _ _
  | (k', c') :: rest, k, c, hnd, hden, hk => by
    have hnd2 : List.Pairwise (fun p q : Sig × Fl => p.1 ≠ q.1) ((k', c') :: rest) := hnd
    obtain ⟨hhead, htail⟩ := List.pairwise_cons.mp hnd2
    unfold updateEntryExact
    split_ifs with hc
    · exact List.Pairwise.cons hhead htail
    · refine List.Pairwise.cons ?_
        (updateEntryExact_keysNodup rest k c htail
          (fun p hp => hden p (List.mem_cons_of_mem _ hp)) hk)
      intro q hq
      rcases updateEntryExact_key_mem rest k c q hq with h2 | ⟨p, hp, hq2⟩
      · rw [h2]
        intro hkk
        have hkk2 : k' = k := hkk
        exact hc (by rw [hkk2]; exact sigKeyEqb_refl k)
      · rw [hq2]
        exact hhead p hp

theorem updateEntryExact_perm {l₁ l₂ : List (Sig × Fl)} (hp : l₁.Perm l₂) :
    keysNodup l₁ → keysDen1 l₁ → ∀ (k : Sig) (c : Fl), sigDen1 k →
      (updateEntryExact l₁ k c).Perm (updateEntryExact l₂ k c) := by
  induction hp with
  | nil =>
    intro _ _ k c _
    exact List.Perm.refl _
  | cons x h ih =>
    intro hnd hden k c hk
    obtain ⟨xk, xc⟩ := x
    have hnd2 := List.pairwise_cons.mp hnd
    by_cases hc : sigKeyEqb xk k = true
    · simp only [updateEntryExact, hc, if_true]
      exact List.Perm.cons _ h
    · simp only [updateEntryExact, hc, if_false]
      exact List.Perm.cons _
        (ih hnd2.2 (fun p hp2 => hden p (List.mem_cons_of_mem _ hp2)) k c hk)
  | swap x y l =>
    intro hnd hden k c hk
    obtain ⟨xk, xc⟩ := x
    obtain ⟨yk, yc⟩ := y
    have hyd : sigDen1 yk := hden _ (List.mem_cons_self _ _)
    have hxd : sigDen1 xk :=
      hden _ (List.mem_cons_of_mem _ (List.mem_cons_self _ _))
    by_cases h1 : sigKeyEqb yk k = true <;> by_cases h2 : sigKeyEqb xk k = true
    · have hy : yk = k := sigKeyEqb_eq_of_den1 hyd hk h1
      have hx : xk = k := sigKeyEqb_eq_of_den1 hxd hk h2
      have hnd2 := List.pairwise_cons.mp hnd
      have hne : yk ≠ xk := hnd2.1 (xk, xc) (List.mem_cons_self _ _)
      exact absurd (hy.trans hx.symm) hne
    · simp only [updateEntryExact, h1, h2]
      exact List.Perm.swap _ _ _
    · simp only [updateEntryExact, h1, h2]
      exact List.Perm.swap _ _ _
    · simp only [updateEntryExact, h1, h2]
      exact List.Perm.swap _ _ _
  | trans h12 h23 ih1 ih2 =>
    intro hnd hden k c hk
    have hnd2 : keysNodup _ :=
      (h12.pairwise_iff (fun {a b} hab => Ne.symm hab)).mp hnd
    have hden2 : keysDen1 _ := fun p hp => hden p (h12.mem_iff.mpr hp)
    exact (ih1 hnd hden k c hk).trans (ih2 hnd2 hden2 k c hk)

theorem updateEntryExact_swap :
    ∀ (l : List (Sig × Fl)) (k₁ k₂ : Sig) (c₁ c₂ : Fl), keysDen1 l →
      sigDen1 k₁ → sigDen1 k₂ →
      (updateEntryExact (updateEntryExact l k₁ c₁) k₂ c₂).Perm
        (updateEntryExact (updateEntryExact l k₂ c₂) k₁ c₁)
  | [], k₁, k₂, c₁, c₂, hden, h1, h2 => by
    by_cases hc : sigKeyEqb k₁ k₂ = true
    · have hk : k₁ = k₂ := sigKeyEqb_eq_of_den1 h1 h2 hc
      subst hk
      simp only [updateEntryExact, sigKeyEqb_refl, if_true]
      rw [Fl.add_com c₁ c₂]
    · have hc2 : ¬ sigKeyEqb k₂ k₁ = true := by
        intro hck
        have hk : k₂ = k₁ := sigKeyEqb_eq_of_den1 h2 h1 hck
        rw [hk] at hc
        exact hc (sigKeyEqb_refl k₁)
      simp only [updateEntryExact, hc, hc2]
      exact List.Perm.swap _ _ _
  | e :: l', k₁, k₂, c₁, c₂, hden, h1, h2 => by
    obtain ⟨ek, ec⟩ := e
    have hek : sigDen1 ek := hden _ (List.mem_cons_self _ _)
    have hdl : keysDen1 l' := fun p hp => hden p (List.mem_cons_of_mem _ hp)
    by_cases he1 : sigKeyEqb ek k₁ = true <;>
      by_cases he2 : sigKeyEqb ek k₂ = true
    · simp only [updateEntryExact, he1, he2, if_true]
      rw [Fl.add_asso, Fl.add_com c₁ c₂, ← Fl.add_asso]
    · simp only [updateEntryExact, he1, he2]
      exact List.Perm.refl _
    · simp only [updateEntryExact, he1, he2]
      exact List.Perm.refl _
    · simp only [updateEntryExact, he1, he2]
      exact List.Perm.cons _ (updateEntryExact_swap l' k₁ k₂ c₁ c₂ hdl h1 h2)

theorem addTermExact_terms_keysDen1 (pe : ParsedExpression) (k : Sig) (c : Fl)
    (hden : keysDen1 pe.terms) (hk : sigDen1 k) :
    keysDen1 (addTermExact pe k c).terms := by
  rw [addTermExact_terms]
  split_ifs with h
  · exact updateEntryExact_keysDen1 pe.terms k c hden hk
  · exact hden

theorem addTermExact_terms_keysNodup (pe : ParsedExpression) (k : Sig) (c : Fl)
    (hnd : keysNodup pe.terms) (hden : keysDen1 pe.terms) (hk : sigDen1 k) :
    keysNodup (addTermExact pe k c).terms := by
  rw [addTermExact_terms]
  split_ifs with h
  · exact updateEntryExact_keysNodup pe.terms k c hnd hden hk
  · exact hnd

theorem addTermExact_terms_perm (pe₁ pe₂ : ParsedExpression)
    (hperm : pe₁.terms.Perm pe₂.terms) (hnd : keysNodup pe₁.terms)
    (hden : keysDen1 pe₁.terms) (k : Sig) (c : Fl) (hk : sigDen1 k) :
    (addTermExact pe₁ k c).terms.Perm (addTermExact pe₂ k c).terms := by
  rw [addTermExact_terms, addTermExact_terms]
  split_ifs with h
  · exact updateEntryExact_perm hperm hnd hden k c hk
  · exact hperm

theorem varIdentifier_den1 : ∀ v : ASTNode, varExpDen1 v →
    (varIdentifier v).2.val.d = 1
  | ASTNode.var _ (ASTNode.number n), h => h
  | ASTNode.var _ (ASTNode.operation o a b), _ => rfl
  | ASTNode.var _ (ASTNode.var a b), _ => rfl
  | ASTNode.var _ (ASTNode.function a b), _ => rfl
  | ASTNode.var _ (ASTNode.equation a b), _ => rfl
  | ASTNode.var _ (ASTNode.expression a), _ => rfl
  | ASTNode.var _ (ASTNode.term a b), _ => rfl
  | ASTNode.number n, _ => rfl
  | ASTNode.operation o a b, _ => rfl
  | ASTNode.function a b, _ => rfl
  | ASTNode.equation a b, _ => rfl
  | ASTNode.expression a, _ => rfl
  | ASTNode.term a b, _ => rfl

theorem termSig_den1 (t : ASTNode) (h : termDen1 t) : sigDen1 (termSig t) := by
  cases t with
  | term c vs =>
    simp only [termSig]
    split_ifs with hl
    · intro p hp
      cases hp
    · intro p hp
      have hp2 : p ∈ vs.map varIdentifier :=
        (insSort_perm termIdLe _).mem_iff.mp hp
      rw [List.mem_map] at hp2
      obtain ⟨v, hv, rfl⟩ := hp2
      exact varIdentifier_den1 v (h v hv)
  | number n => intro p hp; cases hp
  | operation o a b => intro p hp; cases hp
  | var a b => intro p hp; cases hp
  | function a b => intro p hp; cases hp
  | equation a b => intro p hp; cases hp
  | expression a => intro p hp; cases hp

theorem foldl_clStepExact_inv :
    ∀ (l : List ASTNode) (pe : ParsedExpression), (∀ t ∈ l, termDen1 t) →
      keysNodup pe.terms → keysDen1 pe.terms →
      keysNodup (l.foldl clStepExact pe).terms ∧ keysDen1 (l.foldl clStepExact pe).terms
  | [], pe, _, hnd, hden => ⟨hnd, hden⟩
  | t :: rest, pe, hden1, hnd, hden => by
    rw [List.foldl_cons, clStepExact_eq]
    have hts := termSig_den1 t (hden1 t (List.mem_cons_self _ _))
    exact foldl_clStepExact_inv rest _
      (fun x hx => hden1 x (List.mem_cons_of_mem _ hx))
      (addTermExact_terms_keysNodup pe _ _ hnd hden hts)
      (addTermExact_terms_keysDen1 pe _ _ hden hts)

theorem foldl_clStepExact_congr :
    ∀ (l : List ASTNode) (pe₁ pe₂ : ParsedExpression), (∀ t ∈ l, termDen1 t) →
      pe₁.terms.Perm pe₂.terms → keysNodup pe₁.terms → keysDen1 pe₁.terms →
      (l.foldl clStepExact pe₁).terms.Perm (l.foldl clStepExact pe₂).terms
  | [], _, _, _, hperm, _, _ => hperm
  | t :: rest, pe₁, pe₂, hden1, hperm, hnd, hden => by
    rw [List.foldl_cons, List.foldl_cons, clStepExact_eq, clStepExact_eq]
    have hts := termSig_den1 t (hden1 t (List.mem_cons_self _ _))
    exact foldl_clStepExact_congr rest _ _
      (fun x hx => hden1 x (List.mem_cons_of_mem _ hx))
      (addTermExact_terms_perm pe₁ pe₂ hperm hnd hden _ _ hts)
      (addTermExact_terms_keysNodup pe₁ _ _ hnd hden hts)
      (addTermExact_terms_keysDen1 pe₁ _ _ hden hts)

theorem foldl_clStepExact_perm {l₁ l₂ : List ASTNode} (hp : l₁.Perm l₂) :
    (∀ t ∈ l₁, termDen1 t) →
      ∀ (pe₁ pe₂ : ParsedExpression), pe₁.terms.Perm pe₂.terms →
        keysNodup pe₁.terms → keysDen1 pe₁.terms →
        (l₁.foldl clStepExact pe₁).terms.Perm (l₂.foldl clStepExact pe₂).terms := by
  induction hp with
  | nil =>
    intro _ pe₁ pe₂ hperm _ _
    exact hperm
  | cons x h ih =>
    intro hden1 pe₁ pe₂ hperm hnd hden
    rw [List.foldl_cons, List.foldl_cons, clStepExact_eq, clStepExact_eq]
    have hts := termSig_den1 x (hden1 x (List.mem_cons_self _ _))
    exact ih (fun t ht => hden1 t (List.mem_cons_of_mem _ ht)) _ _
      (addTermExact_terms_perm pe₁ pe₂ hperm hnd hden _ _ hts)
      (addTermExact_terms_keysNodup pe₁ _ _ hnd hden hts)
      (addTermExact_terms_keysDen1 pe₁ _ _ hden hts)
  | swap x y l =>
    intro hden1 pe₁ pe₂ hperm hnd hden
    rw [List.foldl_cons, List.foldl_cons, List.foldl_cons, List.foldl_cons,
      clStepExact_eq, clStepExact_eq, clStepExact_eq, clStepExact_eq]
    have hsy : sigDen1 (termSig y) :=
      termSig_den1 y (hden1 y (List.mem_cons_self _ _))
    have hsx : sigDen1 (termSig x) :=
      termSig_den1 x (hden1 x (List.mem_cons_of_mem _ (List.mem_cons_self _ _)))
    have step1 : (addTermExact (addTermExact pe₁ (termSig y) (termCoeff y))
        (termSig x) (termCoeff x)).terms.Perm
        (addTermExact (addTermExact pe₁ (termSig x) (termCoeff x))
          (termSig y) (termCoeff y)).terms := by
      rw [addTermExact_terms, addTermExact_terms, addTermExact_terms, addTermExact_terms]
      split_ifs with hbx hby hby2
      · exact updateEntryExact_swap pe₁.terms _ _ _ _ hden hsy hsx
      · exact List.Perm.refl _
      · exact List.Perm.refl _
      · exact List.Perm.refl _
    have step2 : (addTermExact (addTermExact pe₁ (termSig x) (termCoeff x))
        (termSig y) (termCoeff y)).terms.Perm
        (addTermExact (addTermExact pe₂ (termSig x) (termCoeff x))
          (termSig y) (termCoeff y)).terms :=
      addTermExact_terms_perm _ _
        (addTermExact_terms_perm pe₁ pe₂ hperm hnd hden _ _ hsx)
        (addTermExact_terms_keysNodup pe₁ _ _ hnd hden hsx)
        (addTermExact_terms_keysDen1 pe₁ _ _ hden hsx) _ _ hsy
    refine foldl_clStepExact_congr l _ _
      (fun t ht => hden1 t
        (List.mem_cons_of_mem _ (List.mem_cons_of_mem _ ht)))
      (step1.trans step2) ?_ ?_
    · exact addTermExact_terms_keysNodup _ _ _
        (addTermExact_terms_keysNodup pe₁ _ _ hnd hden hsy)
        (addTermExact_terms_keysDen1 pe₁ _ _ hden hsy) hsx
    · exact addTermExact_terms_keysDen1 _ _ _
        (addTermExact_terms_keysDen1 pe₁ _ _ hden hsy) hsx
  | trans h12 h23 ih1 ih2 =>
    intro hden1 pe₁ pe₂ hperm hnd hden
    have hden2 : ∀ t ∈ _, termDen1 t := fun t ht => hden1 t (h12.mem_iff.mpr ht)
    exact (ih1 hden1 pe₁ pe₁ (List.Perm.refl _) hnd hden).trans
      (ih2 hden2 pe₁ pe₂ hperm hnd hden)

theorem combineLikeTermsExact_inv (l : List ASTNode) (hden : ∀ t ∈ l, termDen1 t) :
    keysNodup (combineLikeTermsExact l).terms ∧
      keysDen1 (combineLikeTermsExact l).terms := by
  unfold combineLikeTermsExact
  exact foldl_clStepExact_inv l ParsedExpression.new hden List.Pairwise.nil
    (fun p hp => absurd hp (List.not_mem_nil p))

theorem combineLikeTermsExact_terms_perm {l₁ l₂ : List ASTNode} (hp : l₁.Perm l₂)
    (hden : ∀ t ∈ l₁, termDen1 t) :
    (combineLikeTermsExact l₁).terms.Perm (combineLikeTermsExact l₂).terms := by
  unfold combineLikeTermsExact
  exact foldl_clStepExact_perm hp hden ParsedExpression.new ParsedExpression.new
    (List.Perm.refl _) List.Pairwise.nil
    (fun p hp2 => absurd hp2 (List.not_mem_nil p))

/-! ### Order independence: collapsing the rounded merges to exact ones -/

theorem rnd64_small (m : ℕ) (h : m < 9007199254740992) : rnd64 m = m := by
  unfold rnd64
  rw [if_pos h]

theorem rndInt_small (x : ℤ) (h : x.natAbs < 9007199254740992) : rndInt x = x := by
  unfold rndInt
  rw [rnd64_small x.natAbs h]
  split_ifs with hx
  · omega
  · omega

theorem addF64_eq_add (a b : Fl) (ha : a.d = 1) (hb : b.d = 1)
    (h : (a.n + b.n).natAbs < 9007199254740992) : addF64 a b = a + b := by
  unfold addF64
  rw [if_pos ⟨ha, hb⟩, rndInt_small _ h]
  show (⟨a.n + b.n, 1⟩ : Fl) = Fl.add a b
  unfold Fl.add
  simp only [Fl.mk.injEq]
  rw [ha, hb]
  constructor
  · push_cast
    ring
  · norm_num

theorem mapAbsSum_nil : mapAbsSum [] = 0 := rfl

theorem mapAbsSum_cons (k : Sig) (c : Fl) (rest : List (Sig × Fl)) :
    mapAbsSum ((k, c) :: rest) = c.n.natAbs + mapAbsSum rest := by
  simp [mapAbsSum]

theorem termsAbsSum_cons (t : ASTNode) (rest : List ASTNode) :
    termsAbsSum (t :: rest) = (termCoeff t).n.natAbs + termsAbsSum rest := by
  simp [termsAbsSum]

theorem updateEntry_eq_exact :
    ∀ (l : List (Sig × Fl)) (k : Sig) (c : Fl), coeffsDen1 l → c.d = 1 →
      mapAbsSum l + c.n.natAbs < 9007199254740992 →
      updateEntry l k c = updateEntryExact l k c
  | [], k, c, _, _, _ => rfl
  | (k', c') :: rest, k, c, hcd, hc, hb => by
    have hc' : c'.d = 1 := hcd _ (List.mem_cons_self _ _)
    rw [mapAbsSum_cons] at hb
    unfold updateEntry updateEntryExact
    split_ifs with hk
    · rw [addF64_eq_add c' c hc' hc (by
        have := Int.natAbs_add_le c'.n c.n
        omega)]
    · rw [updateEntry_eq_exact rest k c
        (fun p hp => hcd p (List.mem_cons_of_mem _ hp)) hc (by omega)]

theorem updateEntryExact_bound :
    ∀ (l : List (Sig × Fl)) (k : Sig) (c : Fl), coeffsDen1 l → c.d = 1 →
      coeffsDen1 (updateEntryExact l k c) ∧
      mapAbsSum (updateEntryExact l k c) ≤ mapAbsSum l + c.n.natAbs
  | [], k, c, _, hc => by
    constructor
    · intro p hp
      rcases List.mem_cons.mp hp with h | h
      · rw [h]
        exact hc
      · exact absurd h (List.not_mem_nil p)
    · show mapAbsSum [(k, c)] ≤ mapAbsSum [] + c.n.natAbs
      rw [mapAbsSum_cons, mapAbsSum_nil]
      omega
  | (k', c') :: rest, k, c, hcd, hc => by
    have hc' : c'.d = 1 := hcd _ (List.mem_cons_self _ _)
    unfold updateEntryExact
    split_ifs with hk
    · constructor
      · intro p hp
        rcases List.mem_cons.mp hp with h | h
        · rw [h]
          show (c' + c).d = 1
          show c'.d * c.d = 1
          rw [hc', hc]
        · exact hcd p (List.mem_cons_of_mem _ h)
      · rw [mapAbsSum_cons, mapAbsSum_cons]
        have hup : (c' + c).n = c'.n * (c.d : ℤ) + c.n * (c'.d : ℤ) := rfl
        rw [hup, hc', hc]
        have h1 := Int.natAbs_add_le (c'.n * ((1 : ℕ) : ℤ)) (c.n * ((1 : ℕ) : ℤ))
        simp only [Nat.cast_one, mul_one] at h1 ⊢
        omega
    · obtain ⟨ih1, ih2⟩ := updateEntryExact_bound rest k c
        (fun p hp => hcd p (List.mem_cons_of_mem _ hp)) hc
      constructor
      · intro p hp
        rcases List.mem_cons.mp hp with h | h
        · rw [h]
          exact hc'
        · exact ih1 p h
      · rw [mapAbsSum_cons, mapAbsSum_cons]
        omega

theorem addTerm_eq_exact (pe : ParsedExpression) (k : Sig) (c : Fl)
    (hcd : coeffsDen1 pe.terms) (hc : c.d = 1)
    (hb : mapAbsSum pe.terms + c.n.natAbs < 9007199254740992) :
    addTerm pe k c = addTermExact pe k c := by
  unfold addTerm addTermExact
  rw [updateEntry_eq_exact pe.terms k c hcd hc hb,
    updateEntry_eq_exact pe.terms [] c hcd hc hb]

theorem addTermExact_bound (pe : ParsedExpression) (k : Sig) (c : Fl)
    (hcd : coeffsDen1 pe.terms) (hc : c.d = 1) :
    coeffsDen1 (addTermExact pe k c).terms ∧
    mapAbsSum (addTermExact pe k c).terms ≤ mapAbsSum pe.terms + c.n.natAbs := by
  unfold addTermExact
  split_ifs with h1 h2
  · exact updateEntryExact_bound pe.terms k c hcd hc
  · exact updateEntryExact_bound pe.terms [] c hcd hc
  · exact ⟨hcd, by omega⟩

theorem clStep_eq (pe : ParsedExpression) (t : ASTNode) :
    clStep pe t = addTerm pe (termSig t) (termCoeff t) := by
  cases t with
  | term c vs =>
    by_cases h : vs.length = 0
    · simp [clStep, termSig, termCoeff, h]
    · simp [clStep, termSig, termCoeff, h]
  | number n => rfl
  | operation o a b => rfl
  | var a b => rfl
  | function a b => rfl
  | equation a b => rfl
  | expression a => rfl

theorem foldl_clStep_eq_exact :
    ∀ (l : List ASTNode) (pe : ParsedExpression), coeffsDen1 pe.terms →
      (∀ t ∈ l, (termCoeff t).d = 1) →
      mapAbsSum pe.terms + termsAbsSum l < 9007199254740992 →
      l.foldl clStep pe = l.foldl clStepExact pe
  | [], pe, _, _, _ => rfl
  | t :: rest, pe, hcd, hld, hb => by
    rw [List.foldl_cons, List.foldl_cons, clStep_eq, clStepExact_eq]
    have hc : (termCoeff t).d = 1 := hld t (List.mem_cons_self _ _)
    rw [termsAbsSum_cons] at hb
    rw [addTerm_eq_exact pe _ _ hcd hc (by omega)]
    obtain ⟨h1, h2⟩ := addTermExact_bound pe (termSig t) (termCoeff t) hcd hc
    exact foldl_clStep_eq_exact rest _ h1
      (fun x hx => hld x (List.mem_cons_of_mem _ hx)) (by omega)

theorem combineLikeTerms_eq_exact (l : List ASTNode)
    (hld : ∀ t ∈ l, (termCoeff t).d = 1)
    (hb : termsAbsSum l < 9007199254740992) :
    combineLikeTerms l = combineLikeTermsExact l := by
  unfold combineLikeTerms combineLikeTermsExact
  refine foldl_clStep_eq_exact l ParsedExpression.new ?_ hld ?_
  · intro p hp
    exact absurd hp (List.not_mem_nil p)
  · show mapAbsSum [] + termsAbsSum l < 9007199254740992
    rw [mapAbsSum_nil]
    omega

theorem find?_unique {α : Type} :
    ∀ (l : List α) (p : α → Bool) (x : α),
      (∀ y ∈ l, p y = true → y = x) → x ∈ l → p x = true →
      l.find? p = some x
  | [], _, x, _, hx, _ => absurd hx (List.not_mem_nil x)
  | a :: l', p, x, huniq, hx, hpx => by
    by_cases hpa : p a = true
    · rw [List.find?_cons_of_pos _ hpa]
      rw [huniq a (List.mem_cons_self _ _) hpa]
    · rw [List.find?_cons_of_neg _ hpa]
      refine find?_unique l' p x
        (fun y hy hpy => huniq y (List.mem_cons_of_mem _ hy) hpy) ?_ hpx
      rcases List.mem_cons.mp hx with h | h
      · rw [h] at hpx
        exact absurd hpx hpa
      · exact h

theorem getTerm_eq_of_perm (pe₁ pe₂ : ParsedExpression)
    (hperm : pe₁.terms.Perm pe₂.terms) (hnd : keysNodup pe₁.terms)
    (hden : keysDen1 pe₁.terms) (k : Sig) (hk : sigDen1 k) :
    getTerm pe₁ k = getTerm pe₂ k := by
  unfold getTerm
  have hsym : Symmetric (fun p q : Sig × Fl => p.1 ≠ q.1) :=
    fun p q h => Ne.symm h
  by_cases hex : ∃ kv ∈ pe₁.terms, sigKeyEqb kv.1 k = true
  · obtain ⟨kv, hmem, hpkv⟩ := hex
    have huniq1 : ∀ y ∈ pe₁.terms, sigKeyEqb y.1 k = true → y = kv := by
      intro y hy hpy
      by_contra hne
      have hyk : y.1 = k := sigKeyEqb_eq_of_den1 (hden y hy) hk hpy
      have hkvk : kv.1 = k := sigKeyEqb_eq_of_den1 (hden kv hmem) hk hpkv
      exact (List.Pairwise.forall hsym hnd hy hmem hne) (hyk.trans hkvk.symm)
    have huniq2 : ∀ y ∈ pe₂.terms, sigKeyEqb y.1 k = true → y = kv :=
      fun y hy hpy => huniq1 y (hperm.mem_iff.mpr hy) hpy
    rw [find?_unique pe₁.terms _ kv huniq1 hmem hpkv,
      find?_unique pe₂.terms _ kv huniq2 (hperm.mem_iff.mp hmem) hpkv]
  · have h1 : pe₁.terms.find? (fun kv => sigKeyEqb kv.1 k) = none := by
      rw [List.find?_eq_none]
      exact fun y hy hpy => hex ⟨y, hy, hpy⟩
    have h2 : pe₂.terms.find? (fun kv => sigKeyEqb kv.1 k) = none := by
      rw [List.find?_eq_none]
      exact fun y hy hpy => hex ⟨y, hperm.mem_iff.mpr hy, hpy⟩
    rw [h1, h2]

theorem zeroFlagLoop_congr :
    ∀ (keys : List Sig) (pe₁ pe₂ : ParsedExpression),
      (∀ k ∈ keys, getTermD pe₁ k = getTermD pe₂ k) → ∀ flag : Bool,
      zeroFlagLoop keys pe₁ flag = zeroFlagLoop keys pe₂ flag
  | [], _, _, _, _ => rfl
  | k :: rest, pe₁, pe₂, h, flag => by
    unfold zeroFlagLoop
    rw [h k (List.mem_cons_self _ _)]
    split_ifs with hz
    · exact zeroFlagLoop_congr rest pe₁ pe₂
        (fun x hx => h x (List.mem_cons_of_mem _ hx)) true
    · rfl

theorem sorted_eq_of_perm :
    ∀ {l₁ l₂ : List Sig}, l₁.Perm l₂ →
      List.Pairwise (fun a b => sigLe a b = true) l₁ →
      List.Pairwise (fun a b => sigLe a b = true) l₂ →
      (∀ a ∈ l₁, sigDen1 a) → l₁ = l₂
  | [], l₂, hp, _, _, _ => by
    cases l₂ with
    | nil => rfl
    | cons b r₂ =>
      have := hp.length_eq
      simp at this
  | a :: r₁, l₂, hp, hs₁, hs₂, hden => by
    cases l₂ with
    | nil =>
      have := hp.length_eq
      simp at this
    | cons b r₂ =>
      by_cases hab : a = b
      · subst hab
        have hp2 : r₁.Perm r₂ := hp.cons_inv
        have hteq := sorted_eq_of_perm hp2 (List.pairwise_cons.mp hs₁).2
          (List.pairwise_cons.mp hs₂).2
          (fun x hx => hden x (List.mem_cons_of_mem _ hx))
        rw [hteq]
      · have hbmem : b ∈ a :: r₁ := hp.mem_iff.mpr (List.mem_cons_self _ _)
        have hb1 : b ∈ r₁ := by
          rcases List.mem_cons.mp hbmem with h | h
          · exact absurd h.symm hab
          · exact h
        have hamem : a ∈ b :: r₂ := hp.mem_iff.mp (List.mem_cons_self _ _)
        have ha2 : a ∈ r₂ := by
          rcases List.mem_cons.mp hamem with h | h
          · exact absurd h hab
          · exact h
        have hle1 : sigLe a b = true := (List.pairwise_cons.mp hs₁).1 b hb1
        have hle2 : sigLe b a = true := (List.pairwise_cons.mp hs₂).1 a ha2
        have hda : sigDen1 a := hden a (List.mem_cons_self _ _)
        have hdb : sigDen1 b := hden b (List.mem_cons_of_mem _ hb1)
        exact absurd (sigLe_antisymm_den1 hda hdb hle1 hle2) hab

theorem getSortedTermSigs_eq_of_perm (pe₁ pe₂ : ParsedExpression)
    (hperm : pe₁.terms.Perm pe₂.terms) (hden : keysDen1 pe₁.terms) :
    getSortedTermSigs pe₁ = getSortedTermSigs pe₂ := by
  unfold getSortedTermSigs
  have hkeys : (pe₁.terms.map (fun kv => kv.1)).Perm
      (pe₂.terms.map (fun kv => kv.1)) := hperm.map _
  have hmem1 : ∀ k ∈ pe₁.terms.map (fun kv => kv.1), sigDen1 k := by
    intro k hk
    rw [List.mem_map] at hk
    obtain ⟨kv, hkv, rfl⟩ := hk
    exact hden kv hkv
  have hmem2 : ∀ k ∈ pe₂.terms.map (fun kv => kv.1), sigDen1 k :=
    fun k hk => hmem1 k (hkeys.mem_iff.mpr hk)
  have hperm12 : (insSort sigLe (pe₁.terms.map (fun kv => kv.1))).Perm
      (insSort sigLe (pe₂.terms.map (fun kv => kv.1))) :=
    ((insSort_perm sigLe _).trans hkeys).trans (insSort_perm sigLe _).symm
  refine sorted_eq_of_perm hperm12 ?_ ?_ ?_
  · exact insSort_pairwise sigLe sigPosDen (fun a b _ _ => sigLe_total a b)
      (fun a b c hpa hpb hpc u v => sigLe_trans hpa hpb hpc u v) _
      (fun y hy => sigPosDen_of_den1 (hmem1 y hy))
  · exact insSort_pairwise sigLe sigPosDen (fun a b _ _ => sigLe_total a b)
      (fun a b c hpa hpb hpc u v => sigLe_trans hpa hpb hpc u v) _
      (fun y hy => sigPosDen_of_den1 (hmem2 y hy))
  · intro a ha
    exact hmem1 a ((insSort_perm sigLe _).mem_iff.mp ha)

theorem printOutExpression_eq_of_perm (pe₁ pe₂ : ParsedExpression)
    (hperm : pe₁.terms.Perm pe₂.terms) (hnd : keysNodup pe₁.terms)
    (hden : keysDen1 pe₁.terms) :
    printOutExpression pe₁ = printOutExpression pe₂ := by
  have hsorted : getSortedTermSigs pe₁ = getSortedTermSigs pe₂ :=
    getSortedTermSigs_eq_of_perm pe₁ pe₂ hperm hden
  have hlookup : ∀ k ∈ getSortedTermSigs pe₂, getTermD pe₁ k = getTermD pe₂ k := by
    intro k hk
    have hk3 := (insSort_perm sigLe _).mem_iff.mp hk
    rw [List.mem_map] at hk3
    obtain ⟨kv, hkv, rfl⟩ := hk3
    have hk2 : sigDen1 kv.1 := hden kv (hperm.mem_iff.mpr hkv)
    unfold getTermD
    rw [getTerm_eq_of_perm pe₁ pe₂ hperm hnd hden kv.1 hk2]
  have hz : zeroFlagLoop (getSortedTermSigs pe₂) pe₁ false =
      zeroFlagLoop (getSortedTermSigs pe₂) pe₂ false :=
    zeroFlagLoop_congr _ pe₁ pe₂ hlookup false
  have hmapeq : (getSortedTermSigs pe₂).map (fun signature =>
        (if approxEq ⟨getTermD pe₁ signature⟩ ⟨1⟩ = false ∨
            signature.length = 0 then
           renderQ (getTermD pe₁ signature)
         else "") ++ renderSigVars signature) =
      (getSortedTermSigs pe₂).map (fun signature =>
        (if approxEq ⟨getTermD pe₂ signature⟩ ⟨1⟩ = false ∨
            signature.length = 0 then
           renderQ (getTermD pe₂ signature)
         else "") ++ renderSigVars signature) := by
    apply List.map_congr_left
    intro a ha
    rw [hlookup a ha]
  simp only [printOutExpression]
  rw [hsorted, hz, hmapeq]

/-! ### Order independence: the lexer over `+`-joined pieces -/

theorem lexGo_append_sep :
    ∀ (cs cur rest : List Char),
      lexGo (cs ++ ' ' :: '+' :: ' ' :: rest) cur =
        lexGo cs cur ++ Token.symbol '+' :: lexGo rest []
  | [], cur, rest => by
    cases cur with
    | nil => rfl
    | cons c0 t =>
      have h1 : lexGo [] (c0 :: t) = [Token.identifier (String.mk (c0 :: t))] := by
        unfold lexGo
        rw [if_pos (by simp)]
      show lexGo (' ' :: '+' :: ' ' :: rest) (c0 :: t) =
        lexGo [] (c0 :: t) ++ Token.symbol '+' :: lexGo rest []
      rw [h1]
      rfl
  | c :: cs', cur, rest => by
    simp only [List.cons_append, List.append_eq, lexGo]
    split_ifs <;>
      first
        | exact lexGo_append_sep cs' cur rest
        | exact lexGo_append_sep cs' (cur ++ [c]) rest
        | (rw [lexGo_append_sep cs' [] rest]; simp [List.append_assoc])
        | (rw [lexGo_append_sep cs' [c] rest]; simp [List.append_assoc])

theorem lex_joinPlus (s : String) (l : List String) (hl : l ≠ []) :
    lex (joinPlus (s :: l)) = lex s ++ Token.symbol '+' :: lex (joinPlus l) := by
  cases l with
  | nil => exact absurd rfl hl
  | cons x xs =>
    show lex (s ++ " + " ++ joinPlus (x :: xs)) = _
    unfold lex
    have hdata : (s ++ " + " ++ joinPlus (x :: xs)).data =
        s.data ++ ' ' :: '+' :: ' ' :: (joinPlus (x :: xs)).data := by
      rw [String.data_append, String.data_append]
      show (s.data ++ [' ', '+', ' ']) ++ (joinPlus (x :: xs)).data = _
      simp [List.append_assoc]
    rw [hdata, lexGo_append_sep]

theorem lexGo_den1 :
    ∀ (cs cur : List Char) (n : Fl), Token.number n ∈ lexGo cs cur → n.d = 1
  | [], cur, n, h => by
    unfold lexGo at h
    split_ifs at h with hc
    · rcases List.mem_cons.mp h with h | h
      · exact Token.noConfusion h
      · exact absurd h (List.not_mem_nil _)
    · exact absurd h (List.not_mem_nil _)
  | c :: cs', cur, n, h => by
    unfold lexGo at h
    by_cases h1 : c.isWhitespace
    · rw [if_pos h1] at h
      exact lexGo_den1 cs' cur n h
    · rw [if_neg h1] at h
      by_cases h2 : c ∈ lexSymbols
      · rw [if_pos h2] at h
        rcases List.mem_append.mp h with h | h
        · split_ifs at h
          · exact absurd h (List.not_mem_nil _)
          · rcases List.mem_cons.mp h with h | h
            · exact Token.noConfusion h
            · exact absurd h (List.not_mem_nil _)
        · rcases List.mem_cons.mp h with h | h
          · exact Token.noConfusion h
          · exact lexGo_den1 cs' [] n h
      · rw [if_neg h2] at h
        by_cases h3 : cur ∈ lexKeywords
        · rw [if_pos h3] at h
          rcases List.mem_append.mp h with h | h
          · split_ifs at h
            · exact absurd h (List.not_mem_nil _)
            · rcases List.mem_cons.mp h with h | h
              · exact Token.noConfusion h
              · exact absurd h (List.not_mem_nil _)
          · exact lexGo_den1 cs' [c] n h
        · rw [if_neg h3] at h
          by_cases h4 : c.isDigit
          · rw [if_pos h4] at h
            rcases List.mem_append.mp h with h | h
            · split_ifs at h
              · exact absurd h (List.not_mem_nil _)
              · rcases List.mem_cons.mp h with h | h
                · exact Token.noConfusion h
                · exact absurd h (List.not_mem_nil _)
            · rcases List.mem_cons.mp h with h | h
              · injection h with h5
                rw [h5]
                rfl
              · exact lexGo_den1 cs' [] n h
          · rw [if_neg h4] at h
            exact lexGo_den1 cs' (cur ++ [c]) n h

theorem lex_den1 (s : String) (n : Fl) (h : Token.number n ∈ lex s) :
    n.d = 1 :=
  lexGo_den1 s.data [] n h

/-! ### Order independence: the parser over `+`-joined pieces -/

theorem lastTokOk_cons (x y : Token) (r : List Token) :
    lastTokOk (x :: y :: r) = lastTokOk (y :: r) := by
  cases x <;> rfl

theorem lastTokOk_ne_nil {ts : List Token} (h : lastTokOk ts = true) :
    ts ≠ [] := by
  intro he
  subst he
  exact Bool.noConfusion h

theorem getSign_minus (rest : List Token) (sign : Bool) :
    getSign (Token.symbol '-' :: rest) sign = getSign rest (!sign) := by
  conv_lhs => unfold getSign
  rw [if_pos rfl]

theorem getSign_plus (rest : List Token) (sign : Bool) :
    getSign (Token.symbol '+' :: rest) sign = getSign rest sign := by
  conv_lhs => unfold getSign
  rw [if_neg (by decide), if_pos rfl]

theorem getSign_other (c : Char) (rest : List Token) (sign : Bool)
    (h1 : c ≠ '-') (h2 : c ≠ '+') :
    getSign (Token.symbol c :: rest) sign = (sign, Token.symbol c :: rest) := by
  unfold getSign
  rw [if_neg h1, if_neg h2]

theorem getSign_last :
    ∀ (ts : List Token) (sign : Bool), lastTokOk ts = true →
      (getSign ts sign).2 ≠ [] ∧ lastTokOk (getSign ts sign).2 = true
  | [], _, h => absurd h (by decide)
  | Token.number n :: rest, sign, h => ⟨List.cons_ne_nil _ _, h⟩
  | Token.identifier s :: rest, sign, h => ⟨List.cons_ne_nil _ _, h⟩
  | Token.symbol c :: rest, sign, h => by
    have hr : rest ≠ [] := by
      intro he
      subst he
      exact Bool.noConfusion h
    obtain ⟨y, r, rfl⟩ : ∃ y r, rest = y :: r := by
      cases rest with
      | nil => exact absurd rfl hr
      | cons y r => exact ⟨y, r, rfl⟩
    have h2 : lastTokOk (y :: r) = true := by
      rw [← lastTokOk_cons (Token.symbol c)]
      exact h
    by_cases hm : c = '-'
    · subst hm
      rw [getSign_minus]
      exact getSign_last (y :: r) (!sign) h2
    · by_cases hp : c = '+'
      · subst hp
        rw [getSign_plus]
        exact getSign_last (y :: r) sign h2
      · rw [getSign_other c _ sign hm hp]
        exact ⟨List.cons_ne_nil _ _, h⟩

theorem getSign_ext :
    ∀ (ts : List Token) (sign : Bool) (ext : List Token),
      (getSign ts sign).2 ≠ [] →
      getSign (ts ++ ext) sign =
        ((getSign ts sign).1, (getSign ts sign).2 ++ ext)
  | [], sign, ext, h => absurd rfl h
  | Token.number n :: rest, sign, ext, h => rfl
  | Token.identifier s :: rest, sign, ext, h => rfl
  | Token.symbol c :: rest, sign, ext, h => by
    by_cases hm : c = '-'
    · subst hm
      rw [getSign_minus] at h
      rw [List.cons_append, getSign_minus, getSign_minus]
      exact getSign_ext rest (!sign) ext h
    · by_cases hp : c = '+'
      · subst hp
        rw [getSign_plus] at h
        rw [List.cons_append, getSign_plus, getSign_plus]
        exact getSign_ext rest sign ext h
      · rw [List.cons_append, getSign_other c _ sign hm hp,
          getSign_other c rest sign hm hp]
        simp

theorem parseDigits_ext :
    ∀ (ts : List Token) (acc v : Fl) (rest r : List Token),
      parseDigits ts acc = Except.ok (v, rest) →
      parseDigits (ts ++ Token.symbol '+' :: r) acc =
        Except.ok (v, rest ++ Token.symbol '+' :: r)
  | [], acc, v, rest, r, h => by
    injection h with h2
    injection h2 with ha hb
    subst ha
    subst hb
    rfl
  | Token.number n :: rest', acc, v, rest, r, h => by
    rw [List.cons_append]
    unfold parseDigits at h ⊢
    split_ifs at h ⊢ with hb
    all_goals first
      | exact Except.noConfusion h
      | exact parseDigits_ext rest' (roundStep acc n) v rest r h
  | Token.identifier s :: rest', acc, v, rest, r, h => by
    injection h with h2
    injection h2 with ha hb
    subst ha
    subst hb
    rfl
  | Token.symbol c :: rest', acc, v, rest, r, h => by
    injection h with h2
    injection h2 with ha hb
    subst ha
    subst hb
    rfl

theorem parseDigits_last :
    ∀ (ts : List Token) (acc v : Fl) (rest : List Token), lastTokOk ts = true →
      parseDigits ts acc = Except.ok (v, rest) →
      rest = [] ∨ lastTokOk rest = true
  | [], acc, v, rest, _, h => by
    injection h with h2
    injection h2 with ha hb
    subst hb
    exact Or.inl rfl
  | Token.number n :: rest', acc, v, rest, hl, h => by
    unfold parseDigits at h
    split_ifs at h with hb
    all_goals try exact Except.noConfusion h
    cases rest' with
    | nil =>
      injection h with h2
      injection h2 with ha hb2
      subst hb2
      exact Or.inl rfl
    | cons y r =>
      have hl2 : lastTokOk (y :: r) = true := by
        rw [← lastTokOk_cons (Token.number n)]
        exact hl
      exact parseDigits_last (y :: r) (roundStep acc n) v rest hl2 h
  | Token.identifier s :: rest', acc, v, rest, hl, h => by
    injection h with h2
    injection h2 with ha hb
    subst hb
    exact Or.inr hl
  | Token.symbol c :: rest', acc, v, rest, hl, h => by
    injection h with h2
    injection h2 with ha hb
    subst hb
    exact Or.inr hl

theorem parseDigits_den1 :
    ∀ (ts : List Token) (acc : Fl), (∀ n : Fl, Token.number n ∈ ts → n.d = 1) →
      acc.d = 1 → ∀ (v : Fl) (rest : List Token),
      parseDigits ts acc = Except.ok (v, rest) → v.d = 1
  | [], acc, _, hacc, v, rest, h => by
    injection h with h2
    injection h2 with ha hb
    subst ha
    exact hacc
  | Token.number n :: rest', acc, hden, hacc, v, rest, h => by
    unfold parseDigits at h
    split_ifs at h with hb
    all_goals try exact Except.noConfusion h
    exact parseDigits_den1 rest' (roundStep acc n)
      (fun m hm => hden m (List.mem_cons_of_mem _ hm)) rfl v rest h
  | Token.identifier s :: rest', acc, _, hacc, v, rest, h => by
    injection h with h2
    injection h2 with ha hb
    subst ha
    exact hacc
  | Token.symbol c :: rest', acc, _, hacc, v, rest, h => by
    injection h with h2
    injection h2 with ha hb
    subst ha
    exact hacc

theorem parseDigits_sub :
    ∀ (ts : List Token) (acc v : Fl) (rest : List Token),
      parseDigits ts acc = Except.ok (v, rest) → ∀ t ∈ rest, t ∈ ts
  | [], acc, v, rest, h => by
    injection h with h2
    injection h2 with ha hb
    subst hb
    intro t ht
    exact absurd ht (List.not_mem_nil t)
  | Token.number n :: rest', acc, v, rest, h => by
    unfold parseDigits at h
    split_ifs at h with hb
    all_goals try exact Except.noConfusion h
    intro t ht
    exact List.mem_cons_of_mem _
      (parseDigits_sub rest' (roundStep acc n) v rest h t ht)
  | Token.identifier s :: rest', acc, v, rest, h => by
    injection h with h2
    injection h2 with ha hb
    subst hb
    intro t ht
    exact ht
  | Token.symbol c :: rest', acc, v, rest, h => by
    injection h with h2
    injection h2 with ha hb
    subst hb
    intro t ht
    exact ht

theorem parseConstant_ext (ts : List Token) (node : ASTNode) (rest r : List Token)
    (hlast : lastTokOk ts = true)
    (h : parseConstant ts = Except.ok (node, rest)) :
    parseConstant (ts ++ Token.symbol '+' :: r) =
      Except.ok (node, rest ++ Token.symbol '+' :: r) := by
  obtain ⟨hne, _⟩ := getSign_last ts true hlast
  have hgs := getSign_ext ts true (Token.symbol '+' :: r) hne
  cases hd : parseDigits (getSign ts true).2 0 with
  | error e => simp [parseConstant, hd] at h
  | ok p =>
    obtain ⟨acc, rest2⟩ := p
    have hpd := parseDigits_ext (getSign ts true).2 0 acc rest2 r hd
    simp only [parseConstant, hd] at h
    injection h with h2
    injection h2 with ha hb
    subst ha
    subst hb
    simp only [parseConstant, hgs, hpd]

theorem parseConstant_last (ts : List Token) (node : ASTNode) (rest : List Token)
    (hlast : lastTokOk ts = true)
    (h : parseConstant ts = Except.ok (node, rest)) :
    rest = [] ∨ lastTokOk rest = true := by
  obtain ⟨hne, hl2⟩ := getSign_last ts true hlast
  cases hd : parseDigits (getSign ts true).2 0 with
  | error e => simp [parseConstant, hd] at h
  | ok p =>
    obtain ⟨acc, rest2⟩ := p
    simp only [parseConstant, hd] at h
    injection h with h2
    injection h2 with ha hb
    subst hb
    exact parseDigits_last (getSign ts true).2 0 acc _ hl2 hd

theorem parseConstant_num_den1 (ts : List Token) (node : ASTNode)
    (rest : List Token) (hden : ∀ n : Fl, Token.number n ∈ ts → n.d = 1)
    (h : parseConstant ts = Except.ok (node, rest)) :
    ∃ m : Fl, node = ASTNode.number m ∧ m.d = 1 := by
  cases hd : parseDigits (getSign ts true).2 0 with
  | error e => simp [parseConstant, hd] at h
  | ok p =>
    obtain ⟨acc, rest2⟩ := p
    simp only [parseConstant, hd] at h
    injection h with h2
    injection h2 with ha hb
    have hacc : acc.d = 1 := parseDigits_den1 (getSign ts true).2 0
      (fun m hm => hden m (getSign_mem ts true (Token.number m) hm)) rfl acc rest2 hd
    refine ⟨acc * (if (getSign ts true).1 then 1 else -1), ha.symm, ?_⟩
    split_ifs with hs
    · show acc.d * 1 = 1
      rw [hacc]
    · show acc.d * 1 = 1
      rw [hacc]

theorem parseConstant_sub (ts : List Token) (node : ASTNode)
    (rest : List Token) (h : parseConstant ts = Except.ok (node, rest)) :
    ∀ t ∈ rest, t ∈ ts := by
  cases hd : parseDigits (getSign ts true).2 0 with
  | error e => simp [parseConstant, hd] at h
  | ok p =>
    obtain ⟨acc, rest2⟩ := p
    simp only [parseConstant, hd] at h
    injection h with h2
    injection h2 with ha hb
    subst hb
    intro t ht
    exact getSign_mem ts true t (parseDigits_sub (getSign ts true).2 0 acc _ hd t ht)

theorem parseOptionalExponent_eq_of_ne (c : Char) (rest0 : List Token)
    (hc : c ≠ '^') :
    parseOptionalExponent (Token.symbol c :: rest0) =
      Except.ok (ASTNode.number 1, Token.symbol c :: rest0) := by
  unfold parseOptionalExponent
  split
  · next heq =>
    injection heq with h1 h2
    injection h1 with hcc
    exact absurd hcc hc
  · rfl

theorem parseOptionalExponent_ext :
    ∀ (ts : List Token) (node : ASTNode) (rest r : List Token),
      (ts = [] ∨ lastTokOk ts = true) →
      parseOptionalExponent ts = Except.ok (node, rest) →
      parseOptionalExponent (ts ++ Token.symbol '+' :: r) =
        Except.ok (node, rest ++ Token.symbol '+' :: r)
  | [], node, rest, r, _, h => by
    injection h with h2
    injection h2 with ha hb
    subst ha
    subst hb
    rfl
  | Token.number n :: rest0, node, rest, r, _, h => by
    injection h with h2
    injection h2 with ha hb
    subst ha
    subst hb
    rfl
  | Token.identifier s :: rest0, node, rest, r, _, h => by
    injection h with h2
    injection h2 with ha hb
    subst ha
    subst hb
    rfl
  | Token.symbol c :: rest0, node, rest, r, hl, h => by
    by_cases hc : c = '^'
    · subst hc
      have hl2 : lastTokOk rest0 = true := by
        rcases hl with hl | hl
        · exact absurd hl (List.cons_ne_nil _ _)
        · cases rest0 with
          | nil => exact Bool.noConfusion hl
          | cons y rr =>
            rw [← lastTokOk_cons (Token.symbol '^')]
            exact hl
      have h2 : parseConstant rest0 = Except.ok (node, rest) := h
      have h3 := parseConstant_ext rest0 node rest r hl2 h2
      show parseOptionalExponent
        (Token.symbol '^' :: (rest0 ++ Token.symbol '+' :: r)) = _
      exact h3
    · rw [parseOptionalExponent_eq_of_ne c rest0 hc] at h
      injection h with h2
      injection h2 with ha hb
      subst ha
      subst hb
      show parseOptionalExponent
        (Token.symbol c :: (rest0 ++ Token.symbol '+' :: r)) = _
      rw [parseOptionalExponent_eq_of_ne c _ hc, List.cons_append]

theorem parseOptionalExponent_last :
    ∀ (ts : List Token) (node : ASTNode) (rest : List Token),
      (ts = [] ∨ lastTokOk ts = true) →
      parseOptionalExponent ts = Except.ok (node, rest) →
      rest = [] ∨ lastTokOk rest = true
  | [], node, rest, _, h => by
    injection h with h2
    injection h2 with ha hb
    subst hb
    exact Or.inl rfl
  | Token.number n :: rest0, node, rest, hl, h => by
    injection h with h2
    injection h2 with ha hb
    subst hb
    rcases hl with hl | hl
    · exact absurd hl (List.cons_ne_nil _ _)
    · exact Or.inr hl
  | Token.identifier s :: rest0, node, rest, hl, h => by
    injection h with h2
    injection h2 with ha hb
    subst hb
    rcases hl with hl | hl
    · exact absurd hl (List.cons_ne_nil _ _)
    · exact Or.inr hl
  | Token.symbol c :: rest0, node, rest, hl, h => by
    by_cases hc : c = '^'
    · subst hc
      have hl2 : lastTokOk rest0 = true := by
        rcases hl with hl | hl
        · exact absurd hl (List.cons_ne_nil _ _)
        · cases rest0 with
          | nil => exact Bool.noConfusion hl
          | cons y rr =>
            rw [← lastTokOk_cons (Token.symbol '^')]
            exact hl
      exact parseConstant_last rest0 node rest hl2 h
    · rw [parseOptionalExponent_eq_of_ne c rest0 hc] at h
      injection h with h2
      injection h2 with ha hb
      subst hb
      rcases hl with hl | hl
      · exact absurd hl (List.cons_ne_nil _ _)
      · exact Or.inr hl

theorem parseOptionalExponent_den1 :
    ∀ (ts : List Token) (node : ASTNode) (rest : List Token),
      (∀ n : Fl, Token.number n ∈ ts → n.d = 1) →
      parseOptionalExponent ts = Except.ok (node, rest) →
      ∀ m : Fl, node = ASTNode.number m → m.d = 1
  | [], node, rest, _, h => by
    injection h with h2
    injection h2 with ha hb
    subst ha
    intro m hm
    injection hm with h3
    rw [← h3]
    rfl
  | Token.number n :: rest0, node, rest, _, h => by
    injection h with h2
    injection h2 with ha hb
    subst ha
    intro m hm
    injection hm with h3
    rw [← h3]
    rfl
  | Token.identifier s :: rest0, node, rest, _, h => by
    injection h with h2
    injection h2 with ha hb
    subst ha
    intro m hm
    injection hm with h3
    rw [← h3]
    rfl
  | Token.symbol c :: rest0, node, rest, hden, h => by
    by_cases hc : c = '^'
    · subst hc
      have h2 : parseConstant rest0 = Except.ok (node, rest) := h
      obtain ⟨m0, hm0, hd0⟩ := parseConstant_num_den1 rest0 node rest
        (fun m hm => hden m (List.mem_cons_of_mem _ hm)) h2
      intro m hm
      rw [hm0] at hm
      injection hm with h3
      rw [← h3]
      exact hd0
    · rw [parseOptionalExponent_eq_of_ne c rest0 hc] at h
      injection h with h2
      injection h2 with ha hb
      subst ha
      intro m hm
      injection hm with h3
      rw [← h3]
      rfl

theorem parseOptionalVariables_ext :
    ∀ (ts : List Token) (vs : List ASTNode) (rest r : List Token),
      (ts = [] ∨ lastTokOk ts = true) →
      parseOptionalVariables ts = Except.ok (vs, rest) →
      parseOptionalVariables (ts ++ Token.symbol '+' :: r) =
        Except.ok (vs, rest ++ Token.symbol '+' :: r)
  | [], vs, rest, r, _, h => by
    injection h with h2
    injection h2 with ha hb
    subst ha
    subst hb
    rfl
  | Token.number n :: rest0, vs, rest, r, _, h => by
    injection h with h2
    injection h2 with ha hb
    subst ha
    subst hb
    rfl
  | Token.symbol c :: rest0, vs, rest, r, _, h => by
    injection h with h2
    injection h2 with ha hb
    subst ha
    subst hb
    rfl
  | Token.identifier s :: rest0, vs, rest, r, hl, h => by
    have hl2 : rest0 = [] ∨ lastTokOk rest0 = true := by
      rcases hl with hl | hl
      · exact absurd hl (List.cons_ne_nil _ _)
      · cases rest0 with
        | nil => exact Or.inl rfl
        | cons y rr =>
          right
          rw [← lastTokOk_cons (Token.identifier s)]
          exact hl
    cases hx : parseOptionalExponent rest0 with
    | error e => simp [parseOptionalVariables, hx] at h
    | ok p =>
      obtain ⟨expNode, ts2⟩ := p
      have hx2 := parseOptionalExponent_ext rest0 expNode ts2 r hl2 hx
      by_cases hbs : s.utf8ByteSize > 1
      · simp only [parseOptionalVariables, hx, hbs, if_true] at h
        injection h with h2
        injection h2 with ha hb
        subst ha
        subst hb
        show parseOptionalVariables
          (Token.identifier s :: (rest0 ++ Token.symbol '+' :: r)) = _
        simp only [parseOptionalVariables, hx2, hbs, if_true]
      · simp only [parseOptionalVariables, hx, hbs, if_false] at h
        injection h with h2
        injection h2 with ha hb
        subst ha
        subst hb
        show parseOptionalVariables
          (Token.identifier s :: (rest0 ++ Token.symbol '+' :: r)) = _
        simp only [parseOptionalVariables, hx2, hbs, if_false]

theorem parseOptionalVariables_last :
    ∀ (ts : List Token) (vs : List ASTNode) (rest : List Token),
      (ts = [] ∨ lastTokOk ts = true) →
      parseOptionalVariables ts = Except.ok (vs, rest) →
      rest = [] ∨ lastTokOk rest = true
  | [], vs, rest, hl, h => by
    injection h with h2
    injection h2 with ha hb
    subst hb
    exact Or.inl rfl
  | Token.number n :: rest0, vs, rest, hl, h => by
    injection h with h2
    injection h2 with ha hb
    subst hb
    rcases hl with hl | hl
    · exact absurd hl (List.cons_ne_nil _ _)
    · exact Or.inr hl
  | Token.symbol c :: rest0, vs, rest, hl, h => by
    injection h with h2
    injection h2 with ha hb
    subst hb
    rcases hl with hl | hl
    · exact absurd hl (List.cons_ne_nil _ _)
    · exact Or.inr hl
  | Token.identifier s :: rest0, vs, rest, hl, h => by
    have hl2 : rest0 = [] ∨ lastTokOk rest0 = true := by
      rcases hl with hl | hl
      · exact absurd hl (List.cons_ne_nil _ _)
      · cases rest0 with
        | nil => exact Or.inl rfl
        | cons y rr =>
          right
          rw [← lastTokOk_cons (Token.identifier s)]
          exact hl
    cases hx : parseOptionalExponent rest0 with
    | error e => simp [parseOptionalVariables, hx] at h
    | ok p =>
      obtain ⟨expNode, ts2⟩ := p
      have hx2 := parseOptionalExponent_last rest0 expNode ts2 hl2 hx
      by_cases hbs : s.utf8ByteSize > 1
      · simp only [parseOptionalVariables, hx, hbs, if_true] at h
        injection h with h2
        injection h2 with ha hb
        subst hb
        exact hx2
      · simp only [parseOptionalVariables, hx, hbs, if_false] at h
        injection h with h2
        injection h2 with ha hb
        subst hb
        exact hx2

theorem parseOptionalVariables_den1 :
    ∀ (ts : List Token) (vs : List ASTNode) (rest : List Token),
      (∀ n : Fl, Token.number n ∈ ts → n.d = 1) →
      parseOptionalVariables ts = Except.ok (vs, rest) →
      ∀ v ∈ vs, varExpDen1 v
  | [], vs, rest, _, h => by
    injection h with h2
    injection h2 with ha hb
    subst ha
    intro v hv
    exact absurd hv (List.not_mem_nil v)
  | Token.number n :: rest0, vs, rest, _, h => by
    injection h with h2
    injection h2 with ha hb
    subst ha
    intro v hv
    exact absurd hv (List.not_mem_nil v)
  | Token.symbol c :: rest0, vs, rest, _, h => by
    injection h with h2
    injection h2 with ha hb
    subst ha
    intro v hv
    exact absurd hv (List.not_mem_nil v)
  | Token.identifier s :: rest0, vs, rest, hden, h => by
    cases hx : parseOptionalExponent rest0 with
    | error e => simp [parseOptionalVariables, hx] at h
    | ok p =>
      obtain ⟨expNode, ts2⟩ := p
      have hexp : ∀ m : Fl, expNode = ASTNode.number m → m.d = 1 :=
        parseOptionalExponent_den1 rest0 expNode ts2
          (fun m hm => hden m (List.mem_cons_of_mem _ hm)) hx
      by_cases hbs : s.utf8ByteSize > 1
      · simp only [parseOptionalVariables, hx, hbs, if_true] at h
        injection h with h2
        injection h2 with ha hb
        subst ha
        intro v hv
        rcases List.mem_append.mp hv with hv | hv
        · rw [List.mem_map] at hv
          obtain ⟨c2, hc2, rfl⟩ := hv
          exact rfl
        · rcases List.mem_cons.mp hv with hv | hv
          · subst hv
            cases expNode with
            | number m => exact hexp m rfl
            | operation o a b => exact rfl
            | var a b => exact rfl
            | function a b => exact rfl
            | equation a b => exact rfl
            | expression a => exact rfl
            | term a b => exact rfl
          · exact absurd hv (List.not_mem_nil _)
      · simp only [parseOptionalVariables, hx, hbs, if_false] at h
        injection h with h2
        injection h2 with ha hb
        subst ha
        intro v hv
        rcases List.mem_cons.mp hv with hv | hv
        · subst hv
          cases expNode with
          | number m => exact hexp m rfl
          | operation o a b => exact trivial
          | var a b => exact trivial
          | function a b => exact trivial
          | equation a b => exact trivial
          | expression a => exact trivial
          | term a b => exact trivial
        · exact absurd hv (List.not_mem_nil _)

theorem parseTerm_ext (ts : List Token) (t : ASTNode) (r : List Token)
    (hlast : lastTokOk ts = true) (h : parseTerm ts = Except.ok (t, [])) :
    parseTerm (ts ++ Token.symbol '+' :: r) = Except.ok (t, r) := by
  cases hc : parseConstant ts with
  | error e => simp [parseTerm, hc] at h
  | ok p =>
    obtain ⟨coefficient, ts1⟩ := p
    cases hv : parseOptionalVariables ts1 with
    | error e => simp [parseTerm, hc, hv] at h
    | ok q =>
      obtain ⟨vs, ts2⟩ := q
      have hl1 : ts1 = [] ∨ lastTokOk ts1 = true :=
        parseConstant_last ts _ ts1 hlast hc
      have hl2 : ts2 = [] ∨ lastTokOk ts2 = true :=
        parseOptionalVariables_last ts1 vs ts2 hl1 hv
      have hts2 : ts2 = [] := by
        have hpp : popPlus ts2 = [] := by
          simp only [parseTerm, hc, hv] at h
          split_ifs at h
          all_goals injection h with h2
          all_goals injection h2 with ha hb
          all_goals exact hb
        cases hts2c : ts2 with
        | nil => rfl
        | cons y rr =>
          rw [hts2c] at hpp hl2
          cases y with
          | symbol cch =>
            by_cases hch : cch = '+'
            · subst hch
              have hrr : rr = [] := hpp
              subst hrr
              rcases hl2 with hl2 | hl2
              · exact List.noConfusion hl2
              · exact Bool.noConfusion hl2
            · have hsame : Token.symbol cch :: rr = [] := by
                rw [← hpp]
                unfold popPlus
                split
                · next heq =>
                  injection heq with h1 h2
                  injection h1 with hcc
                  exact absurd hcc hch
                · rfl
              exact List.noConfusion hsame
          | number nn =>
            exact List.noConfusion (show Token.number nn :: rr = [] from hpp)
          | identifier ss =>
            exact List.noConfusion
              (show Token.identifier ss :: rr = [] from hpp)
      subst hts2
      have hce := parseConstant_ext ts coefficient ts1 r hlast hc
      have hve := parseOptionalVariables_ext ts1 vs [] r hl1 hv
      simp only [parseTerm, hc, hv] at h
      simp only [parseTerm, hce, hve]
      simp only [List.length_append, List.nil_append]
      split_ifs at h ⊢ <;>
        first
          | (exfalso
             omega)
          | (injection h with h2
             injection h2 with ha hb
             subst ha
             simp [popPlus])

theorem parseTerm_den1 (ts : List Token) (t : ASTNode) (rest : List Token)
    (hden : ∀ n : Fl, Token.number n ∈ ts → n.d = 1)
    (h : parseTerm ts = Except.ok (t, rest)) : termDen1 t := by
  cases hc : parseConstant ts with
  | error e => simp [parseTerm, hc] at h
  | ok p =>
    obtain ⟨coefficient, ts1⟩ := p
    cases hv : parseOptionalVariables ts1 with
    | error e => simp [parseTerm, hc, hv] at h
    | ok q =>
      obtain ⟨vs, ts2⟩ := q
      have hts1 : ∀ n : Fl, Token.number n ∈ ts1 → n.d = 1 :=
        fun n hn => hden n (parseConstant_sub ts coefficient ts1 hc
          (Token.number n) hn)
      have hvs : ∀ v ∈ vs, varExpDen1 v :=
        parseOptionalVariables_den1 ts1 vs ts2 hts1 hv
      simp only [parseTerm, hc, hv] at h
      split_ifs at h
      all_goals first
        | (injection h with h2
           injection h2 with ha hb
           rw [← ha]
           exact hvs)
        | exact hvs

theorem goodPiece_parse (s : String) (hg : goodPiece s = true) :
    parseTerm (lex s) = Except.ok (pieceTermD s, []) ∧
      lastTokOk (lex s) = true := by
  unfold goodPiece at hg
  rw [Bool.and_eq_true] at hg
  obtain ⟨h1, h2⟩ := hg
  refine ⟨?_, h1⟩
  unfold consumesAll at h2
  cases hp : parseTerm (lex s) with
  | error e =>
    rw [hp] at h2
    exact Bool.noConfusion h2
  | ok p =>
    obtain ⟨t, rest⟩ := p
    rw [hp] at h2
    cases rest with
    | nil =>
      unfold pieceTermD
      rw [hp]
    | cons y r => exact Bool.noConfusion h2

theorem parseExpressionFuel_pieces :
    ∀ (l : List String) (fuel : ℕ), (∀ s ∈ l, goodPiece s = true) →
      l.length ≤ fuel →
      parseExpressionFuel fuel (lex (joinPlus l)) =
        some (Except.ok (l.map pieceTermD))
  | [], fuel, _, _ => by
    show parseExpressionFuel fuel (lex "") = _
    cases fuel <;> rfl
  | s :: l', fuel, hg, hlen => by
    obtain ⟨hps, hlast⟩ := goodPiece_parse s (hg s (List.mem_cons_self _ _))
    have hne : lex s ≠ [] := lastTokOk_ne_nil hlast
    obtain ⟨t0, ts0, hts0⟩ : ∃ t0 ts0, lex s = t0 :: ts0 := by
      cases hl : lex s with
      | nil => exact absurd hl hne
      | cons a b => exact ⟨a, b, rfl⟩
    cases l' with
    | nil =>
      show parseExpressionFuel fuel (lex s) = some (Except.ok [pieceTermD s])
      cases fuel with
      | zero => simp at hlen
      | succ f =>
        rw [hts0]
        have hps2 : parseTerm (t0 :: ts0) = Except.ok (pieceTermD s, []) := by
          rw [← hts0]
          exact hps
        simp only [parseExpressionFuel, hps2]
    | cons x xs =>
      have hjoin := lex_joinPlus s (x :: xs) (List.cons_ne_nil _ _)
      rw [hjoin]
      have hext := parseTerm_ext (lex s) (pieceTermD s)
        (lex (joinPlus (x :: xs))) hlast hps
      cases fuel with
      | zero => simp at hlen
      | succ f =>
        rw [hts0] at hext ⊢
        rw [List.cons_append] at hext ⊢
        simp only [parseExpressionFuel, hext]
        have hrec := parseExpressionFuel_pieces (x :: xs) f
          (fun q hq => hg q (List.mem_cons_of_mem _ hq))
          (by simp only [List.length_cons] at hlen ⊢; omega)
        simp only [hrec]
        rfl

theorem joinPlus_token_bound :
    ∀ (l : List String), (∀ s ∈ l, goodPiece s = true) →
      l.length ≤ (lex (joinPlus l)).length
  | [], _ => Nat.zero_le _
  | [s], hg => by
    have hne := lastTokOk_ne_nil (goodPiece_parse s (hg s (List.mem_cons_self _ _))).2
    show 1 ≤ (lex s).length
    cases hl : lex s with
    | nil => exact absurd hl hne
    | cons a b => simp
  | s :: x :: xs, hg => by
    rw [lex_joinPlus s (x :: xs) (List.cons_ne_nil _ _)]
    have hrec := joinPlus_token_bound (x :: xs)
      (fun q hq => hg q (List.mem_cons_of_mem _ hq))
    simp only [List.length_append, List.length_cons] at hrec ⊢
    omega

theorem parse_pieces (l : List String) (hg : ∀ s ∈ l, goodPiece s = true) :
    parse (lex (joinPlus l)) =
      some (Except.ok (ASTNode.expression (l.map pieceTermD))) := by
  unfold parse
  rw [parseExpressionFuel_pieces l ((lex (joinPlus l)).length + 1) hg
    (by have := joinPlus_token_bound l hg; omega)]
  rfl

theorem run_pieces (l : List String) (hl : l ≠ [])
    (hg : ∀ s ∈ l, goodPiece s = true) :
    run (joinPlus l) =
      some (Except.ok (printOutExpression
        (combineLikeTerms (l.map pieceTermD)))) := by
  have hlen : ¬ ((l.map pieceTermD).length = 0) := by
    simp only [List.length_map, List.length_eq_zero]
    exact hl
  simp only [run, parse_pieces l hg, interpret, solve, hlen, if_false]

theorem parseTerm_coeff_den1 (ts : List Token) (t : ASTNode) (rest : List Token)
    (hden : ∀ n : Fl, Token.number n ∈ ts → n.d = 1)
    (h : parseTerm ts = Except.ok (t, rest)) : (termCoeff t).d = 1 := by
  cases hc : parseConstant ts with
  | error e => simp [parseTerm, hc] at h
  | ok p =>
    obtain ⟨coefficient, ts1⟩ := p
    cases hv : parseOptionalVariables ts1 with
    | error e => simp [parseTerm, hc, hv] at h
    | ok q =>
      obtain ⟨vs, ts2⟩ := q
      obtain ⟨m, hm, hmd⟩ := parseConstant_num_den1 ts coefficient ts1 hden hc
      simp only [parseTerm, hc, hv] at h
      split_ifs at h with h1 h2
      · injection h with h3
        injection h3 with ha hb
        subst ha
        rfl
      · injection h with h3
        injection h3 with ha hb
        subst ha
        rfl
      · injection h with h3
        injection h3 with ha hb
        subst ha
        subst hm
        exact hmd

theorem pieceCoeff_den1 (s : String) (hg : goodPiece s = true) :
    (pieceCoeff s).d = 1 := by
  obtain ⟨hps, _⟩ := goodPiece_parse s hg
  exact parseTerm_coeff_den1 (lex s) (pieceTermD s) []
    (fun n hn => lex_den1 s n hn) hps

set_option maxRecDepth 4000 in
/-- Beyond the `2^53 - 1` bound, the rounded coefficient merge makes the
pipeline genuinely order sensitive: adding `1` to `10^16` rounds back to
`10^16` (tie to the even multiple), while `1 + 1` merged first reaches the
exactly representable `10^16 + 2`, so two orders of the same multiset of
pieces render different output strings. -/
theorem run_order_sensitive_beyond_bound :
    run (joinPlus ["10000000000000000x", "1x", "1x"]) =
      some (Except.ok "10000000000000000x") ∧
    run (joinPlus ["1x", "1x", "10000000000000000x"]) =
      some (Except.ok "10000000000000002x") := by
  refine ⟨by rfl, by rfl⟩

end Cas
